import Mathlib

set_option maxHeartbeats 1000000

/-!
Verification development for the duplicate-detection pipeline of
`deduplicate_utils.py`.

The four functions of the source file are shallowly embedded:

* `build_id_lookup`  — builds the vector-id → metadata lookup table;
* `collect_groups`   — turns FAISS `range_search` output (`lims`, `labels`,
  in compressed-row form) into an adjacency structure and extracts connected
  components with an explicit-stack DFS;
* `write_dedup_jsonl` — aggregates components into per-file-pair duplicate
  records (the written JSONL stream is modelled as the list of records, in
  output order);
* `update_duplicate_flags` — rewrites a JSONL entries file, setting the
  `duplicate` field of entries whose `file_id` is a key of the update map.

Python `dict`s are modelled as insertion-ordered association lists (Python
dicts preserve insertion order; key lookup is first-match, which agrees with
dict semantics as keys are unique).  Python `set`s are modelled as
duplicate-free lists; every theorem about the DFS is proved for arbitrary
orderings of these lists, matching the unspecified iteration order of Python
sets.  JSON numbers are modelled as `Rat` (no arithmetic is ever performed on
them — they are only copied, compared and defaulted — so the numeric
representation is irrelevant).  `faiss.normalize_L2` and `index.range_search`
are the external range-search provider; the embedding starts from that
provider's output, exactly as the specification's §6 interface describes.
-/

/-! ## Data model: lookup records, clip pairs, duplicate-pair records -/

/-- One value of the `lookup` dict built by `build_id_lookup`:
metadata for a single indexed clip or image.  The Python key `"prefix"` is
called `pfx` here (the source name is not usable as a Lean identifier). -/
structure LookupRecord where
  file_id : Int
  file_name : String
  clip_idx : Option Int
  faiss_id : Int
  media_type : String
  pfx : String
  duration : Rat
  variance : Rat
  start_s : Option Rat
  end_s : Option Rat
deriving DecidableEq, Repr

/-- One side (`"original"` or `"duplicate"`) of a clip-pair sub-record. -/
structure ClipSide where
  file_id : Int
  file_name : String
  media_type : String
  clip_idx : Option Int
  start_s : Option Rat
  end_s : Option Rat
deriving DecidableEq, Repr

/-- One clip-pair sub-record appended to `pair_map[(fid_a, fid_b)]`. -/
structure ClipPair where
  original : ClipSide
  duplicate : ClipSide
deriving DecidableEq, Repr

/-- One output line of `write_dedup_jsonl`. -/
structure DupRecord where
  original_file_id : Int
  original_file_name : String
  original_duration : Rat
  duplicate_file_id : Int
  duplicate_file_name : String
  duplicate_duration : Rat
  clips : List ClipPair
deriving DecidableEq, Repr

/-- The `lookup` dict (`faiss_id -> record`), insertion ordered. -/
abbrev Lookup := List (Int × LookupRecord)

/-- `lookup[i]` / `i in lookup` (dict access; first match = dict match since
dict keys are unique). -/
def lookupGet (lk : Lookup) (i : Int) : Option LookupRecord :=
  (lk.find? (fun p => decide (p.1 = i))).map (fun p => p.2)

/-- `[lookup[i] for i in group if i in lookup]`. -/
def mappedEntries (lk : Lookup) (g : List Int) : List LookupRecord :=
  g.filterMap (lookupGet lk)

/-! ## `write_dedup_jsonl`: grouping a component's entries by file -/

/-- The `by_file` dict: `file_id -> list of entries`, insertion ordered. -/
abbrev ByFile := List (Int × List LookupRecord)

/-- `by_file[e["file_id"]].append(e)` on a `defaultdict(list)`. -/
def byFileAdd : ByFile → LookupRecord → ByFile
  | [], e => [(e.file_id, [e])]
  | (k, l) :: rest, e =>
    if k = e.file_id then (k, l ++ [e]) :: rest else (k, l) :: byFileAdd rest e

/-- The `for e in entries: by_file[e["file_id"]].append(e)` loop. -/
def byFileFold (entries : List LookupRecord) : ByFile :=
  entries.foldl byFileAdd []

/-- `by_file[fid]` (defaulting to `[]`, which never happens for present keys). -/
def bfVal (bf : ByFile) (k : Int) : List LookupRecord :=
  ((bf.find? (fun p => decide (p.1 = k))).map (fun p => p.2)).getD []

/-! ## `write_dedup_jsonl`: the pair map -/

/-- The `pair_map` dict: `(fid_a, fid_b) -> clip pairs`, insertion ordered. -/
abbrev PairMap := List ((Int × Int) × List ClipPair)

/-- Append clip pairs under a key, in place for an existing key, pushing a
fresh binding at the end otherwise (`defaultdict(list)` + `append`). -/
def pmAppendCore : PairMap → (Int × Int) → List ClipPair → PairMap
  | [], k, ps => [(k, ps)]
  | (k', l) :: rest, k, ps =>
    if k' = k then (k', l ++ ps) :: rest else (k', l) :: pmAppendCore rest k ps

/-- `pair_map[k].append(...)` iterated over `ps`; an empty `ps` performs no
dict access at all, hence creates no key. -/
def pmAppend (pm : PairMap) (k : Int × Int) (ps : List ClipPair) : PairMap :=
  if ps.isEmpty then pm else pmAppendCore pm k ps

/-- The clip pairs currently accumulated under key `k` (empty for an absent
key). -/
def pmVal (pm : PairMap) (k : Int × Int) : List ClipPair :=
  ((pm.find? (fun p => decide (p.1 = k))).map (fun p => p.2)).getD []

/-- Dict lookup on the pair map. -/
def pmFind (pm : PairMap) (k : Int × Int) : Option (List ClipPair) :=
  (pm.find? (fun p => decide (p.1 = k))).map (fun p => p.2)

/-- Projection of a lookup entry onto one side of a clip-pair sub-record,
mirroring the dict literal built inside the double loop. -/
def mkClipSide (e : LookupRecord) : ClipSide :=
  { file_id := e.file_id, file_name := e.file_name, media_type := e.media_type,
    clip_idx := e.clip_idx, start_s := e.start_s, end_s := e.end_s }

/-- The clip-pair sub-record for `ca` (original side) and `cb` (duplicate
side). -/
def mkClipPair (ca cb : LookupRecord) : ClipPair :=
  { original := mkClipSide ca, duplicate := mkClipSide cb }

/-- The index pairs `(file_ids[i], file_ids[j])` for `i < j`, in the order of
the two nested `range` loops. -/
def orderedPairs : List Int → List (Int × Int)
  | [] => []
  | a :: rest => rest.map (fun b => (a, b)) ++ orderedPairs rest

/-- `for ca in clips_a: for cb in clips_b: ...`, the full cross product in
loop order. -/
def crossPairs (xs ys : List LookupRecord) : List ClipPair :=
  (xs.map (fun ca => ys.map (fun cb => mkClipPair ca cb))).flatten

/-- Processing of one component by the accumulation phase of
`write_dedup_jsonl`: the three guards, the partition by file, and the double
loop over distinct file pairs. -/
def processGroup (lk : Lookup) (pm : PairMap) (g : List Int) : PairMap :=
  if g.length ≤ 1 then pm
  else
    let entries := mappedEntries lk g
    if entries.length ≤ 1 then pm
    else
      let bf := byFileFold entries
      let fids := bf.map (fun p => p.1)
      if fids.length ≤ 1 then pm
      else
        (orderedPairs fids).foldl
          (fun pm' kp => pmAppend pm' kp (crossPairs (bfVal bf kp.1) (bfVal bf kp.2))) pm

/-- The full accumulation loop `for group in groups: ...` of
`write_dedup_jsonl`. -/
def buildPairMap (gs : List (List Int)) (lk : Lookup) : PairMap :=
  gs.foldl (processGroup lk) []

/-- Placeholder clip side; `clip_pairs[0]` is only ever taken on non-empty
lists (pair-map values are provably non-empty), so this default is never
read. -/
def defaultSide : ClipSide :=
  { file_id := 0, file_name := "", media_type := "", clip_idx := none,
    start_s := none, end_s := none }

/-- Finalization of one accumulated `(key, clip_pairs)` item into an output
record: representative names from `clip_pairs[0]`, durations as the first
matching entry of `lookup.values()` (in insertion order), default `0.0`. -/
def finalizeRecord (lk : Lookup) (kv : (Int × Int) × List ClipPair) : DupRecord :=
  let c0 := kv.2.headD { original := defaultSide, duplicate := defaultSide }
  let origDs := ((lk.map (fun p => p.2)).filter (fun e => decide (e.file_id = kv.1.1))).map
    (fun e => e.duration)
  let dupDs := ((lk.map (fun p => p.2)).filter (fun e => decide (e.file_id = kv.1.2))).map
    (fun e => e.duration)
  { original_file_id := kv.1.1
    original_file_name := c0.original.file_name
    original_duration := origDs.headD 0
    duplicate_file_id := kv.1.2
    duplicate_file_name := c0.duplicate.file_name
    duplicate_duration := dupDs.headD 0
    clips := kv.2 }

/-- `write_dedup_jsonl`, with the written JSONL stream modelled as the list
of records in output (= pair-map insertion) order. -/
def write_dedup_jsonl (gs : List (List Int)) (lk : Lookup) : List DupRecord :=
  (buildPairMap gs lk).map (finalizeRecord lk)

/-! ## `collect_groups`: adjacency construction -/

/-- The `neighbors` defaultdict: vector id → neighbor set.  Neighbor sets are
Python sets; they are modelled as duplicate-free lists, and every theorem
below is invariant under reordering (see the order-independence theorem). -/
abbrev Adj := List (Int × List Int)

/-- `neighbors[x]` as a set of ids (empty for an absent key). -/
def adjVal (adj : Adj) (x : Int) : List Int :=
  ((adj.find? (fun p => decide (p.1 = x))).map (fun p => p.2)).getD []

/-- The keys of the `neighbors` dict, in insertion order. -/
def adjKeys (adj : Adj) : List Int :=
  adj.map (fun p => p.1)

/-- `neighbors[a].add(b)`: create the key if absent (at the end, in dict
insertion order), add `b` to its set if not already present. -/
def addEdgeDir : Adj → Int → Int → Adj
  | [], a, b => [(a, [b])]
  | (k, ns) :: rest, a, b =>
    if k = a then (k, if b ∈ ns then ns else ns ++ [b]) :: rest
    else (k, ns) :: addEdgeDir rest a b

/-- `neighbors[qid].add(jid); neighbors[jid].add(qid)`. -/
def addEdge (adj : Adj) (a b : Int) : Adj :=
  addEdgeDir (addEdgeDir adj a b) b a

/-- `labels[lims[qi] : lims[qi+1]]`, the neighbor ids reported for query row
`qi` of the range-search result. -/
def rowSlice (lims : List Nat) (labels : List Int) (qi : Nat) : List Int :=
  (labels.drop (lims.getD qi 0)).take (lims.getD (qi + 1) 0 - lims.getD qi 0)

/-- The adjacency-building loop body for one query row: skip empty rows, take
`qid = labels[start]`, and add an edge for every other label that is neither
the sentinel `-1` nor `qid` itself. -/
def processRow (adj : Adj) (row : List Int) : Adj :=
  match row with
  | [] => adj
  | qid :: _ =>
    row.foldl (fun g j => if j = -1 ∨ j = qid then g else addEdge g qid j) adj

/-- The full adjacency structure built from one range-search result
(`n = len(embeddings)` query rows). -/
def buildAdjacency (lims : List Nat) (labels : List Int) (n : Nat) : Adj :=
  (List.range n).foldl (fun g qi => processRow g (rowSlice lims labels qi)) []

/-! ## `collect_groups`: DFS component extraction -/

/-- The inner DFS loop (`while stack:`), with explicit stack, visited set and
component accumulator.  Python pops from the end of the list and extends with
`neighbors[cur] - visited`; the stack is represented top-first here. -/
def dfsLoop (adj : Adj) (stack visited comp : List Int) : List Int × List Int :=
  match stack with
  | [] => (visited, comp)
  | cur :: rest =>
    if cur ∈ visited then dfsLoop adj rest visited comp
    else
      dfsLoop adj
        (((adjVal adj cur).filter (fun y => decide (y ∉ cur :: visited))).reverse ++ rest)
        (cur :: visited) (comp ++ [cur])
termination_by (((adjKeys adj).toFinset \ visited.toFinset).card, stack.length)
decreasing_by
  · apply Prod.Lex.right
    simp
  · rename_i hnv
    by_cases hk : a ∈ adjKeys adj
    · apply Prod.Lex.left
      apply Finset.card_lt_card
      constructor
      · intro x hx
        simp only [Finset.mem_sdiff, List.mem_toFinset, List.toFinset_cons,
          Finset.mem_insert] at hx ⊢
        exact ⟨hx.1, fun h => hx.2 (Or.inr h)⟩
      · intro hsub
        have hcur : a ∈ (adjKeys adj).toFinset \ visited.toFinset := by
          simp only [Finset.mem_sdiff, List.mem_toFinset]
          exact ⟨hk, hnv⟩
        have := hsub hcur
        simp only [Finset.mem_sdiff, List.mem_toFinset, List.toFinset_cons,
          Finset.mem_insert] at this
        exact this.2 (Or.inl trivial)
    · have hval : adjVal adj a = [] := by
        unfold adjVal
        have : adj.find? (fun p => decide (p.1 = a)) = none := by
          rw [List.find?_eq_none]
          intro p hp hdec
          exact hk (by
            simp only [decide_eq_true_eq] at hdec
            exact hdec ▸ List.mem_map_of_mem (fun q => q.1) hp)
        rw [this]
        rfl
      have hcard : ((adjKeys adj).toFinset \ (a :: visited).toFinset).card
          = ((adjKeys adj).toFinset \ visited.toFinset).card := by
        congr 1
        ext x
        simp only [Finset.mem_sdiff, List.mem_toFinset, List.toFinset_cons,
          Finset.mem_insert]
        constructor
        · rintro ⟨h1, h2⟩
          exact ⟨h1, fun h => h2 (Or.inr h)⟩
        · rintro ⟨h1, h2⟩
          refine ⟨h1, fun h => ?_⟩
          rcases h with h | h
          · exact hk (h ▸ h1)
          · exact h2 h
      rw [hval, hcard]
      apply Prod.Lex.right
      simp

/-- The outer loop `for node in neighbors:` collecting one component per
still-unvisited key. -/
def extractLoop (adj : Adj) : List Int → List Int → List (List Int) → List (List Int)
  | [], _, groups => groups
  | node :: rest, visited, groups =>
    if node ∈ visited then extractLoop adj rest visited groups
    else
      let r := dfsLoop adj [node] visited []
      extractLoop adj rest r.1 (groups ++ [r.2])

/-- Component extraction over the adjacency structure. -/
def extractComponents (adj : Adj) : List (List Int) :=
  extractLoop adj (adjKeys adj) [] []

/-- `collect_groups`, starting from the range-search provider's output
(`lims`, `labels`, `n` query rows), per §6 of the specification. -/
def collect_groups (lims : List Nat) (labels : List Int) (n : Nat) : List (List Int) :=
  extractComponents (buildAdjacency lims labels n)

/-! ## Graph-level notions used to state the claims -/

/-- `x` and `y` are joined by an edge contributed by one query row: the row
is non-empty, its first label is the canonical id `qid`, and some label `j`
of the row with `j ≠ -1`, `j ≠ qid` yields the undirected edge `(qid, j)`. -/
def edgeInRow (row : List Int) (x y : Int) : Prop :=
  match row with
  | [] => False
  | qid :: _ =>
    ∃ j ∈ row, j ≠ -1 ∧ j ≠ qid ∧ ((x = qid ∧ y = j) ∨ (x = j ∧ y = qid))

/-- The undirected edge relation induced by a range-search result. -/
def IsEdge (lims : List Nat) (labels : List Int) (n : Nat) (x y : Int) : Prop :=
  ∃ qi, qi < n ∧ edgeInRow (rowSlice lims labels qi) x y

/-- Single adjacency step: `y` is a recorded neighbor of `x`. -/
def Step (adj : Adj) (x y : Int) : Prop :=
  y ∈ adjVal adj x

/-- Reachability in the adjacency structure. -/
def Reaches (adj : Adj) : Int → Int → Prop :=
  Relation.ReflTransGen (Step adj)

/-- Two adjacency structures carry the same set-level data: same key set and
the same neighbor set for every id.  Reorderings of the dict and of the
neighbor sets — i.e. different traversal orders — are exactly the
`AdjEquiv`-related structures. -/
def AdjEquiv (a₁ a₂ : Adj) : Prop :=
  (∀ x, x ∈ adjKeys a₁ ↔ x ∈ adjKeys a₂) ∧ (∀ x y, y ∈ adjVal a₁ x ↔ y ∈ adjVal a₂ x)

/-- The components of an adjacency structure, viewed as a set of sets of
vector ids. -/
def componentSets (adj : Adj) : Finset (Finset Int) :=
  ((extractComponents adj).map (fun g => g.toFinset)).toFinset

/-! ## `build_id_lookup` -/

/-- One element of a video entry's `"clips"` list, with the optional fields
accessed by the source (`.get` accesses are `Option`-valued). -/
structure RawClip where
  faiss_id : Option Int
  clip_idx : Option Int
  start_s : Option Rat
  end_s : Option Rat
deriving DecidableEq, Repr

/-- One metadata database entry.  Fields read with `entry.get(...)` are
`Option`-valued (`None` when the key is absent); `entry["file_id"]` and
`entry["file_name"]` raise `KeyError` when absent, which the embedding
surfaces through `Except`.  The two nested quality lookups
`entry.get("quality", {}).get("variance", 0.0)` (video path) and
`entry.get("metadata", {}).get("quality", {}).get("variance", 0.0)` (image
path) are flattened into one optional field each; `"prefix"` is called `pfx`
(the source name is not usable as a Lean identifier). -/
structure RawEntry where
  media_type : Option String
  file_id : Option Int
  file_name : Option String
  clips : List RawClip
  faiss_id : Option Int
  pfx : Option String
  duration : Option Rat
  quality_variance : Option Rat
  metadata_quality_variance : Option Rat
deriving DecidableEq, Repr

/-- `lookup[fid] = {...}`: dict assignment — replace in place when the key
exists, append a fresh binding otherwise. -/
def lookupInsert : Lookup → Int → LookupRecord → Lookup
  | [], k, v => [(k, v)]
  | (k', v') :: rest, k, v =>
    if k' = k then (k', v) :: rest else (k', v') :: lookupInsert rest k v

/-- The record built for one video clip with indexed id `fid`. -/
def mkVideoRecord (e : RawEntry) (c : RawClip) (fid fileId : Int) (fileName : String) :
    LookupRecord :=
  { file_id := fileId, file_name := fileName, clip_idx := c.clip_idx, faiss_id := fid,
    media_type := "video", pfx := e.pfx.getD "", duration := e.duration.getD 0,
    variance := e.quality_variance.getD 0, start_s := c.start_s, end_s := c.end_s }

/-- The record built for one image entry with indexed id `fid`. -/
def mkImageRecord (e : RawEntry) (fid fileId : Int) (fileName : String) : LookupRecord :=
  { file_id := fileId, file_name := fileName, clip_idx := none, faiss_id := fid,
    media_type := "image", pfx := e.pfx.getD "", duration := 0,
    variance := e.metadata_quality_variance.getD 0, start_s := none, end_s := none }

/-- The body of the clips loop of the video branch: clips without a
`faiss_id` are skipped; otherwise `entry["file_id"]` and
`entry["file_name"]` are read — an absent field raises `KeyError`, modelled
as `Except.error` carrying the field name — and the record is inserted. -/
def processClip (e : RawEntry) (lk : Lookup) (c : RawClip) : Except String Lookup :=
  match c.faiss_id with
  | none => .ok lk
  | some fid =>
    match e.file_id with
    | none => .error "file_id"
    | some fileId =>
      match e.file_name with
      | none => .error "file_name"
      | some fileName => .ok (lookupInsert lk fid (mkVideoRecord e c fid fileId fileName))

/-- The `for clip in entry.get("clips", [])` loop, propagating the first
`KeyError`. -/
def processClips (e : RawEntry) : Lookup → List RawClip → Except String Lookup
  | lk, [] => .ok lk
  | lk, c :: cs =>
    match processClip e lk c with
    | .error msg => .error msg
    | .ok lk' => processClips e lk' cs

/-- Processing of one database entry by `build_id_lookup`: dispatch on
`media_type` (any other value is skipped entirely). -/
def processEntry (lk : Lookup) (e : RawEntry) : Except String Lookup :=
  if e.media_type = some "video" then
    processClips e lk e.clips
  else if e.media_type = some "image" then
    match e.faiss_id with
    | none => .ok lk
    | some fid =>
      match e.file_id with
      | none => .error "file_id"
      | some fileId =>
        match e.file_name with
        | none => .error "file_name"
        | some fileName => .ok (lookupInsert lk fid (mkImageRecord e fid fileId fileName))
  else .ok lk

/-- The `for entry in database` loop, propagating the first `KeyError`. -/
def build_id_lookup_go : Lookup → List RawEntry → Except String Lookup
  | lk, [] => .ok lk
  | lk, e :: rest =>
    match processEntry lk e with
    | .error msg => .error msg
    | .ok lk' => build_id_lookup_go lk' rest

/-- `build_id_lookup`: `Except.error f` models the uncaught `KeyError` on
required field `f`, aborting construction. -/
def build_id_lookup (db : List RawEntry) : Except String Lookup :=
  build_id_lookup_go [] db

/-- The entry misses a required identifying field. -/
def MissingReq (e : RawEntry) : Prop :=
  e.file_id = none ∨ e.file_name = none

/-- The entry carries at least one indexed vector id, so the body that reads
the required fields is reached. -/
def HasIndexedVec (e : RawEntry) : Prop :=
  (e.media_type = some "video" ∧ ∃ c ∈ e.clips, c.faiss_id ≠ none) ∨
    (e.media_type = some "image" ∧ e.faiss_id ≠ none)

/-! ## `update_duplicate_flags` -/

/-- JSON values, as returned by `json.loads` (numbers as `Rat`: they are
only compared and copied, never computed with). -/
inductive JVal : Type where
  | null : JVal
  | jbool : Bool → JVal
  | num : Rat → JVal
  | str : String → JVal
  | arr : List JVal → JVal
  | obj : List (String × JVal) → JVal

/-- One line of the descriptions file, by parse outcome: whitespace-only
lines (skipped by `line.strip()`), lines parsing to a JSON value, and lines
on which `json.loads` raises. -/
inductive SrcLine : Type where
  | blank : SrcLine
  | okLine : JVal → SrcLine
  | malformed : SrcLine

/-- The errors `update_duplicate_flags` can raise: `json.loads` failure,
`.get` on a non-dict entry (`AttributeError`), and `fid in updates` on an
unhashable `file_id` (`TypeError` for list/dict values). -/
inductive UpdErr : Type where
  | parseErr : UpdErr
  | attrErr : UpdErr
  | unhashable : UpdErr
deriving DecidableEq, Repr

/-- The load loop: append the parse of every non-blank line, propagating the
first parse failure. -/
def readEntries : List SrcLine → Except UpdErr (List JVal)
  | [] => .ok []
  | .blank :: rest => readEntries rest
  | .okLine v :: rest => (readEntries rest).map (fun es => v :: es)
  | .malformed :: _ => .error .parseErr

/-- `entry.get(k)` on a JSON object (first binding; `json.loads` produces
duplicate-free keys). -/
def getField : JVal → String → Option JVal
  | .obj fs, k => (fs.find? (fun p => decide (p.1 = k))).map (fun p => p.2)
  | _, _ => none

/-- `entry[k] = v` on a JSON object's fields: replace in place, else append. -/
def setField : List (String × JVal) → String → JVal → List (String × JVal)
  | [], k, v => [(k, v)]
  | (k', v') :: rest, k, v =>
    if k' = k then (k', v) :: rest else (k', v') :: setField rest k v

/-- `fid in updates` / `updates[fid]` for a `dict[int, bool]`: numeric
equality across JSON numbers and booleans (Python: `True == 1`,
`False == 0`); strings and `null` are hashable but never equal to an int
key; lists and dicts are unhashable, so the membership test itself raises
`TypeError`. -/
def fidLookup (updates : List (Int × Bool)) : JVal → Except UpdErr (Option Bool)
  | .arr _ => .error .unhashable
  | .obj _ => .error .unhashable
  | .num q => .ok ((updates.find? (fun p => decide ((p.1 : Rat) = q))).map (fun p => p.2))
  | .jbool b =>
    .ok ((updates.find? (fun p => decide ((p.1 : Rat) = (if b then 1 else 0)))).map
      (fun p => p.2))
  | .null => .ok none
  | .str _ => .ok none

/-- One iteration of the update loop: `fid = entry.get("file_id")`
(`AttributeError` on a non-dict entry); set `entry["duplicate"]` when
`fid in updates`. -/
def updateEntry (updates : List (Int × Bool)) (e : JVal) : Except UpdErr JVal :=
  match e with
  | .obj fs =>
    match getField (.obj fs) "file_id" with
    | none => .ok (.obj fs)
    | some fid =>
      match fidLookup updates fid with
      | .error er => .error er
      | .ok none => .ok (.obj fs)
      | .ok (some b) => .ok (.obj (setField fs "duplicate" (.jbool b)))
  | _ => .error .attrErr

/-- The update loop over all loaded entries, propagating the first error. -/
def applyUpdates (updates : List (Int × Bool)) : List JVal → Except UpdErr (List JVal)
  | [] => .ok []
  | e :: rest =>
    match updateEntry updates e with
    | .error er => .error er
    | .ok e' => (applyUpdates updates rest).map (fun es => e' :: es)

/-- `update_duplicate_flags`.  The first component is the returned entry
list (or the uncaught exception); the second component models the contents
of the descriptions file after the call: the file is rewritten (one
serialized entry per line) only when load and update both succeed, and keeps
its original contents on any failure, since the write phase only starts
afterwards. -/
def update_duplicate_flags (file : List SrcLine) (updates : List (Int × Bool)) :
    Except UpdErr (List JVal) × List SrcLine :=
  match readEntries file with
  | .error er => (.error er, file)
  | .ok entries =>
    match applyUpdates updates entries with
    | .error er => (.error er, file)
    | .ok updated => (.ok updated, updated.map SrcLine.okLine)

/-- The entry's `file_id` would select update key `k` (Python `==` between
the JSON value and the int key). -/
def FidMatches (v : JVal) (k : Int) : Prop :=
  getField v "file_id" = some (.num (k : Rat)) ∨
    (∃ b, getField v "file_id" = some (.jbool b) ∧ ((k : Rat) = if b then 1 else 0))

/-- The entry's `file_id`, if present, is hashable (not a JSON array or
object). -/
def FidHashable (v : JVal) : Prop :=
  ∀ fid, getField v "file_id" = some fid →
    (∀ xs, fid ≠ .arr xs) ∧ (∀ fs, fid ≠ .obj fs)

/-! ## Graph-level predicates used in the proofs -/

/-- The visited set is closed under the adjacency relation. -/
def VisitedClosed (adj : Adj) (visited : List Int) : Prop :=
  ∀ x ∈ visited, ∀ y ∈ adjVal adj x, y ∈ visited

/-- The adjacency relation is symmetric (an invariant of `buildAdjacency`,
which always inserts both directions of an edge). -/
def SymmP (adj : Adj) : Prop :=
  ∀ x y, y ∈ adjVal adj x → x ∈ adjVal adj y

/-- An id is a key exactly when it has at least one recorded neighbor (an
invariant of `buildAdjacency`: keys are only ever created together with a
neighbor). -/
def KeyIffNeighbor (adj : Adj) : Prop :=
  ∀ x, x ∈ adjKeys adj ↔ ∃ y, y ∈ adjVal adj x

/-- No id is its own neighbor (an invariant of `buildAdjacency`: the
`jid == qid` guard). -/
def NoSelfStep (adj : Adj) : Prop :=
  ∀ x, x ∉ adjVal adj x

/-- The id `c` occurs nowhere in the adjacency structure. -/
def NoNode (adj : Adj) (c : Int) : Prop :=
  c ∉ adjKeys adj ∧ ∀ x, c ∉ adjVal adj x

/-! ## Concrete inputs for counterexamples and witnesses -/

/-- A concrete video-clip lookup record. -/
def exRec (fid : Int) (nm : String) (fileId : Int) (dur : Rat) : LookupRecord :=
  { file_id := fileId, file_name := nm, clip_idx := some 0, faiss_id := fid,
    media_type := "video", pfx := "", duration := dur, variance := 0,
    start_s := some 0, end_s := some 1 }

/-- Lookup table: vector ids 1, 4 belong to file 100; vector ids 2, 3 belong
to file 200. -/
def exLookup : Lookup :=
  [(1, exRec 1 "a.mp4" 100 10), (2, exRec 2 "b.mp4" 200 20),
   (3, exRec 3 "b2.mp4" 200 20), (4, exRec 4 "a2.mp4" 100 10)]

/-- Range-search output with four query rows producing the two edges
`1–2` and `3–4` (components `[1,2]` and `[3,4]`). -/
def exLims : List Nat := [0, 2, 4, 6, 8]

/-- The labels of `exLims`' rows: `[1,2]`, `[2,1]`, `[3,4]`, `[4,3]`. -/
def exLabels : List Int := [1, 2, 2, 1, 3, 4, 4, 3]

/-- The adjacency structure `buildAdjacency exLims exLabels 4` evaluates to. -/
def exAdj : Adj := [(1, [2]), (2, [1]), (3, [4]), (4, [3])]

/-- An image entry with no vector id and no identifying fields at all. -/
def exImageNoVec : RawEntry :=
  { media_type := some "image", file_id := none, file_name := none, clips := [],
    faiss_id := none, pfx := none, duration := none, quality_variance := none,
    metadata_quality_variance := none }

/-- An image entry with an indexed vector id but no `file_id` field. -/
def exImageFatal : RawEntry :=
  { media_type := some "image", file_id := none, file_name := some "img.png",
    clips := [], faiss_id := some 9, pfx := none, duration := none,
    quality_variance := none, metadata_quality_variance := none }

/-- A well-formed descriptions entry `{"file_id": 1, "duplicate": false}`. -/
def exEntryObj : JVal :=
  .obj [("file_id", .num 1), ("duplicate", .jbool false)]

/-- A descriptions file with one well-formed entry. -/
def exFileGood : List SrcLine := [.okLine exEntryObj]

/-- A descriptions file whose second line fails to parse. -/
def exFileBad : List SrcLine := [.okLine exEntryObj, .malformed]

/-- A descriptions file whose single line parses to the JSON number `5`
(not an object). -/
def exFileNonObj : List SrcLine := [.okLine (.num 5)]

/-! # Theorems -/

/-! ## Association-list basics -/

theorem assoc_find_cons {κ β : Type} [DecidableEq κ] (a : κ × β) (l : List (κ × β)) (k : κ) :
    (a :: l).find? (fun p => decide (p.1 = k))
      = if a.1 = k then some a else l.find? (fun p => decide (p.1 = k)) := by
  by_cases h : a.1 = k
  · rw [if_pos h, List.find?_cons_of_pos _ (by simp [h])]
  · rw [if_neg h, List.find?_cons_of_neg _ (by simp [h])]

theorem assocVal_cons {κ β : Type} [DecidableEq κ] (d : β) (a : κ × β) (l : List (κ × β))
    (k : κ) :
    (((a :: l).find? (fun p => decide (p.1 = k))).map (fun p => p.2)).getD d
      = if a.1 = k then a.2
        else ((l.find? (fun p => decide (p.1 = k))).map (fun p => p.2)).getD d := by
  rw [assoc_find_cons]
  by_cases h : a.1 = k <;> simp [h]

theorem assoc_find_mem {κ β : Type} [DecidableEq κ] {l : List (κ × β)} {k : κ} {q : κ × β}
    (h : l.find? (fun p => decide (p.1 = k)) = some q) : q ∈ l ∧ q.1 = k := by
  have hp := @List.find?_some (κ × β) (fun p => decide (p.1 = k)) q l h
  exact ⟨List.mem_of_find?_eq_some h, of_decide_eq_true hp⟩

theorem assoc_find_none {κ β : Type} [DecidableEq κ] {l : List (κ × β)} {k : κ} :
    l.find? (fun p => decide (p.1 = k)) = none ↔ ∀ q ∈ l, q.1 ≠ k := by
  rw [List.find?_eq_none]
  constructor
  · intro h q hq hk
    exact absurd (h q hq) (by simp [hk])
  · intro h q hq
    simp [h q hq]

/-! ## Pair-map lemmas -/

@[simp] theorem pmVal_nil (k : Int × Int) : pmVal [] k = [] := rfl

theorem pmVal_cons (a : (Int × Int) × List ClipPair) (pm : PairMap) (k : Int × Int) :
    pmVal (a :: pm) k = if a.1 = k then a.2 else pmVal pm k := by
  unfold pmVal
  exact assocVal_cons [] a pm k

theorem pmVal_appendCore (pm : PairMap) (k k' : Int × Int) (ps : List ClipPair) :
    pmVal (pmAppendCore pm k ps) k' = if k' = k then pmVal pm k' ++ ps else pmVal pm k' := by
  induction pm with
  | nil =>
    rw [show pmAppendCore [] k ps = [(k, ps)] from rfl, pmVal_cons]
    by_cases h : k' = k
    · simp [h]
    · simp [h, Ne.symm h]
  | cons a rest ih =>
    obtain ⟨k₀, l₀⟩ := a
    by_cases h0 : k₀ = k
    · subst h0
      rw [show pmAppendCore ((k₀, l₀) :: rest) k₀ ps = (k₀, l₀ ++ ps) :: rest from by
        simp [pmAppendCore]]
      rw [pmVal_cons, pmVal_cons]
      by_cases h1 : k' = k₀
      · subst h1; simp
      · simp [h1, Ne.symm h1]
    · rw [show pmAppendCore ((k₀, l₀) :: rest) k ps = (k₀, l₀) :: pmAppendCore rest k ps from by
        simp [pmAppendCore, h0]]
      rw [pmVal_cons, pmVal_cons, ih]
      by_cases h1 : k₀ = k'
      · subst h1
        simp [h0]
      · simp [h1]

theorem pmVal_append (pm : PairMap) (k : Int × Int) (ps : List ClipPair) (k' : Int × Int) :
    pmVal (pmAppend pm k ps) k' = if k' = k then pmVal pm k' ++ ps else pmVal pm k' := by
  unfold pmAppend
  by_cases hemp : ps.isEmpty
  · rw [if_pos hemp]
    have : ps = [] := by simpa using hemp
    subst this
    by_cases h : k' = k <;> simp [h]
  · rw [if_neg hemp]
    exact pmVal_appendCore pm k k' ps

theorem pmFoldVal (C : Int × Int → List ClipPair) (l : List (Int × Int)) (pm : PairMap)
    (k : Int × Int) :
    pmVal (l.foldl (fun pm' kp => pmAppend pm' kp (C kp)) pm) k
      = pmVal pm k ++ pmVal (l.foldl (fun pm' kp => pmAppend pm' kp (C kp)) []) k := by
  induction l generalizing pm with
  | nil => simp
  | cons kp l ih =>
    rw [List.foldl_cons, List.foldl_cons, ih (pmAppend pm kp (C kp)),
      ih (pmAppend [] kp (C kp)), pmVal_append, pmVal_append]
    by_cases h : k = kp <;> simp [h, List.append_assoc]

theorem processGroup_val (lk : Lookup) (pm : PairMap) (g : List Int) (k : Int × Int) :
    pmVal (processGroup lk pm g) k = pmVal pm k ++ pmVal (processGroup lk [] g) k := by
  unfold processGroup
  by_cases h1 : g.length ≤ 1
  · simp [h1]
  by_cases h2 : (mappedEntries lk g).length ≤ 1
  · simp [h1, h2]
  by_cases h3 : ((byFileFold (mappedEntries lk g)).map (fun p => p.1)).length ≤ 1
  · simp only [if_neg h1, if_neg h2, if_pos h3]
    simp
  · simp only [if_neg h1, if_neg h2, if_neg h3]
    exact pmFoldVal _ _ pm k

theorem buildPairMap_foldl_val (lk : Lookup) (gs : List (List Int)) (pm : PairMap)
    (k : Int × Int) :
    pmVal (gs.foldl (processGroup lk) pm) k
      = pmVal pm k ++ (gs.map (fun g => pmVal (processGroup lk [] g) k)).flatten := by
  induction gs generalizing pm with
  | nil => simp
  | cons g gs ih =>
    rw [List.foldl_cons, ih (processGroup lk pm g), processGroup_val]
    simp [List.append_assoc]

/-- The pair map accumulated over a whole run holds, under each key, the
concatenation of every component's contribution to that key, in run order. -/
theorem buildPairMap_val (gs : List (List Int)) (lk : Lookup) (k : Int × Int) :
    pmVal (buildPairMap gs lk) k
      = (gs.map (fun g => pmVal (processGroup lk [] g) k)).flatten := by
  unfold buildPairMap
  rw [buildPairMap_foldl_val]
  simp

/-! ## Pair-map invariants: distinct keys, non-empty values -/

theorem pmAppendCore_keys (pm : PairMap) (k : Int × Int) (ps : List ClipPair) :
    (pmAppendCore pm k ps).map (fun p => p.1)
      = if k ∈ pm.map (fun p => p.1) then pm.map (fun p => p.1)
        else pm.map (fun p => p.1) ++ [k] := by
  induction pm with
  | nil => simp [pmAppendCore]
  | cons a rest ih =>
    obtain ⟨k₀, l₀⟩ := a
    by_cases h0 : k₀ = k
    · subst h0
      simp [pmAppendCore]
    · rw [show pmAppendCore ((k₀, l₀) :: rest) k ps = (k₀, l₀) :: pmAppendCore rest k ps from by
        simp [pmAppendCore, h0]]
      rw [List.map_cons, ih, List.map_cons]
      by_cases hm : k ∈ rest.map (fun p => p.1)
      · rw [if_pos hm, if_pos (List.mem_cons_of_mem _ hm)]
      · rw [if_neg hm, if_neg (by
          intro hc
          rcases List.mem_cons.mp hc with hc | hc
          · exact h0 hc.symm
          · exact hm hc)]
        rfl

theorem pmAppendCore_vals (pm : PairMap) (k : Int × Int) (ps : List ClipPair)
    (hps : ps ≠ []) (h : ∀ q ∈ pm, q.2 ≠ []) : ∀ q ∈ pmAppendCore pm k ps, q.2 ≠ [] := by
  induction pm with
  | nil =>
    intro q hq
    rw [show pmAppendCore [] k ps = [(k, ps)] from rfl] at hq
    rcases List.mem_singleton.mp hq with hq
    subst hq
    exact hps
  | cons a rest ih =>
    obtain ⟨k₀, l₀⟩ := a
    by_cases h0 : k₀ = k
    · subst h0
      intro q hq
      rw [show pmAppendCore ((k₀, l₀) :: rest) k₀ ps = (k₀, l₀ ++ ps) :: rest from by
        simp [pmAppendCore]] at hq
      rcases List.mem_cons.mp hq with hq | hq
      · subst hq
        simp [hps]
      · exact h q (List.mem_cons_of_mem _ hq)
    · intro q hq
      rw [show pmAppendCore ((k₀, l₀) :: rest) k ps = (k₀, l₀) :: pmAppendCore rest k ps from by
        simp [pmAppendCore, h0]] at hq
      rcases List.mem_cons.mp hq with hq | hq
      · subst hq
        exact h (k₀, l₀) (List.mem_cons_self _ _)
      · exact ih (fun q' hq' => h q' (List.mem_cons_of_mem _ hq')) q hq

theorem pmAppend_keys_nodup (pm : PairMap) (k : Int × Int) (ps : List ClipPair)
    (h : (pm.map (fun p => p.1)).Nodup) :
    ((pmAppend pm k ps).map (fun p => p.1)).Nodup := by
  unfold pmAppend
  by_cases hemp : ps.isEmpty
  · rw [if_pos hemp]; exact h
  · rw [if_neg hemp, pmAppendCore_keys]
    by_cases hm : k ∈ pm.map (fun p => p.1)
    · rw [if_pos hm]; exact h
    · rw [if_neg hm]
      rw [List.nodup_append]
      exact ⟨h, List.nodup_singleton k, by
        intro a ha hb
        rcases List.mem_singleton.mp hb with hb
        exact hm (hb ▸ ha)⟩

theorem pmAppend_vals (pm : PairMap) (k : Int × Int) (ps : List ClipPair)
    (h : ∀ q ∈ pm, q.2 ≠ []) : ∀ q ∈ pmAppend pm k ps, q.2 ≠ [] := by
  unfold pmAppend
  by_cases hemp : ps.isEmpty
  · rw [if_pos hemp]; exact h
  · rw [if_neg hemp]
    exact pmAppendCore_vals pm k ps (by simpa using hemp) h

theorem pmFold_inv (C : Int × Int → List ClipPair) (l : List (Int × Int)) :
    ∀ pm : PairMap, (pm.map (fun p => p.1)).Nodup → (∀ q ∈ pm, q.2 ≠ []) →
      ((l.foldl (fun pm' kp => pmAppend pm' kp (C kp)) pm).map (fun p => p.1)).Nodup ∧
        ∀ q ∈ l.foldl (fun pm' kp => pmAppend pm' kp (C kp)) pm, q.2 ≠ [] := by
  induction l with
  | nil => intro pm h1 h2; exact ⟨h1, h2⟩
  | cons kp l ih =>
    intro pm h1 h2
    exact ih _ (pmAppend_keys_nodup _ _ _ h1) (pmAppend_vals _ _ _ h2)

theorem processGroup_inv (lk : Lookup) (pm : PairMap) (g : List Int)
    (h1 : (pm.map (fun p => p.1)).Nodup) (h2 : ∀ q ∈ pm, q.2 ≠ []) :
    ((processGroup lk pm g).map (fun p => p.1)).Nodup ∧
      ∀ q ∈ processGroup lk pm g, q.2 ≠ [] := by
  unfold processGroup
  by_cases hg1 : g.length ≤ 1
  · simp only [if_pos hg1]; exact ⟨h1, h2⟩
  by_cases hg2 : (mappedEntries lk g).length ≤ 1
  · simp only [if_neg hg1, if_pos hg2]; exact ⟨h1, h2⟩
  by_cases hg3 : ((byFileFold (mappedEntries lk g)).map (fun p => p.1)).length ≤ 1
  · simp only [if_neg hg1, if_neg hg2, if_pos hg3]; exact ⟨h1, h2⟩
  · simp only [if_neg hg1, if_neg hg2, if_neg hg3]
    exact pmFold_inv _ _ pm h1 h2

theorem buildPairMap_foldl_inv (lk : Lookup) (gs : List (List Int)) :
    ∀ pm : PairMap, (pm.map (fun p => p.1)).Nodup → (∀ q ∈ pm, q.2 ≠ []) →
      ((gs.foldl (processGroup lk) pm).map (fun p => p.1)).Nodup ∧
        ∀ q ∈ gs.foldl (processGroup lk) pm, q.2 ≠ [] := by
  induction gs with
  | nil => intro pm h1 h2; exact ⟨h1, h2⟩
  | cons g gs ih =>
    intro pm h1 h2
    exact ih _ (processGroup_inv lk pm g h1 h2).1 (processGroup_inv lk pm g h1 h2).2

/-- The accumulated pair map is a well-formed dict: its keys are pairwise
distinct and every accumulated clip-pair list is non-empty. -/
theorem buildPairMap_inv (gs : List (List Int)) (lk : Lookup) :
    ((buildPairMap gs lk).map (fun p => p.1)).Nodup ∧
      ∀ q ∈ buildPairMap gs lk, q.2 ≠ [] := by
  unfold buildPairMap
  exact buildPairMap_foldl_inv lk gs [] (by simp) (by simp)

/-! ## Finalization lemmas -/

@[simp] theorem finalize_orig_id (lk : Lookup) (kv : (Int × Int) × List ClipPair) :
    (finalizeRecord lk kv).original_file_id = kv.1.1 := rfl

@[simp] theorem finalize_dup_id (lk : Lookup) (kv : (Int × Int) × List ClipPair) :
    (finalizeRecord lk kv).duplicate_file_id = kv.1.2 := rfl

@[simp] theorem finalize_clips (lk : Lookup) (kv : (Int × Int) × List ClipPair) :
    (finalizeRecord lk kv).clips = kv.2 := rfl

theorem filter_headD_eq_find (l : List LookupRecord) (fid : Int) :
    (((l.filter (fun e => decide (e.file_id = fid))).map (fun e => e.duration)).headD 0
      : Rat)
      = match l.find? (fun e => decide (e.file_id = fid)) with
        | some e => e.duration
        | none => 0 := by
  induction l with
  | nil => rfl
  | cons a l ih =>
    by_cases hb : a.file_id = fid
    · rw [List.filter_cons_of_pos (by simp [hb]), List.find?_cons_of_pos _ (by simp [hb])]
      rfl
    · rw [List.filter_cons_of_neg (by simp [hb]), List.find?_cons_of_neg _ (by simp [hb])]
      exact ih

theorem filter_map_finalize (lk : Lookup) (k : Int × Int) :
    ∀ pm : PairMap, (pm.map (fun p => p.1)).Nodup →
      ∀ q, pm.find? (fun p => decide (p.1 = k)) = some q →
        (pm.map (finalizeRecord lk)).filter
            (fun r => decide (r.original_file_id = k.1) && decide (r.duplicate_file_id = k.2))
          = [finalizeRecord lk q] := by
  intro pm
  induction pm with
  | nil => intro _ q h; simp at h
  | cons a rest ih =>
    intro hnd q hf
    rw [assoc_find_cons] at hf
    by_cases h0 : a.1 = k
    · rw [if_pos h0] at hf
      have haq : a = q := by injection hf
      subst haq
      have hk1 : a.1.1 = k.1 := by rw [h0]
      have hk2 : a.1.2 = k.2 := by rw [h0]
      rw [List.map_cons, List.filter_cons_of_pos (by
        simp only [finalize_orig_id, finalize_dup_id, Bool.and_eq_true, decide_eq_true_eq]
        exact ⟨hk1, hk2⟩)]
      have hanotin : a.1 ∉ rest.map (fun p => p.1) := by
        have h' := hnd
        rw [List.map_cons] at h'
        exact (List.nodup_cons.mp h').1
      have hfil : (rest.map (finalizeRecord lk)).filter
          (fun r => decide (r.original_file_id = k.1) && decide (r.duplicate_file_id = k.2))
            = [] := by
        rw [List.filter_eq_nil_iff]
        intro r hr
        obtain ⟨p, hp, hpr⟩ := List.mem_map.mp hr
        subst hpr
        simp only [finalize_orig_id, finalize_dup_id, Bool.and_eq_true, decide_eq_true_eq,
          not_and]
        intro hc1 hc2
        have hpk : p.1 = k := Prod.ext hc1 hc2
        have hmem : p.1 ∈ rest.map (fun p => p.1) :=
          List.mem_map_of_mem (fun p => p.1) hp
        rw [hpk, ← h0] at hmem
        exact absurd hmem hanotin
      rw [hfil]
    · rw [if_neg h0] at hf
      rw [List.map_cons, List.filter_cons_of_neg (by
        simp only [finalize_orig_id, finalize_dup_id, Bool.and_eq_true, decide_eq_true_eq,
          not_and]
        intro hc1 hc2
        exact h0 (Prod.ext hc1 hc2))]
      exact ih (by
        have h' := hnd
        rw [List.map_cons] at h'
        exact (List.nodup_cons.mp h').2) q hf

/-! ## DFS unfolding lemmas -/

theorem dfsLoop_nil (adj : Adj) (visited comp : List Int) :
    dfsLoop adj [] visited comp = (visited, comp) := by
  rw [dfsLoop]

theorem dfsLoop_cons_mem {adj : Adj} {cur : Int} {rest visited comp : List Int}
    (h : cur ∈ visited) :
    dfsLoop adj (cur :: rest) visited comp = dfsLoop adj rest visited comp := by
  rw [dfsLoop]
  simp [h]

theorem dfsLoop_cons_not_mem {adj : Adj} {cur : Int} {rest visited comp : List Int}
    (h : cur ∉ visited) :
    dfsLoop adj (cur :: rest) visited comp
      = dfsLoop adj
          (((adjVal adj cur).filter (fun y => decide (y ∉ cur :: visited))).reverse ++ rest)
          (cur :: visited) (comp ++ [cur]) := by
  rw [dfsLoop]
  simp [h]

/-- Concrete evaluation of the Grouper on `exLims`/`exLabels`: two
components, the second discovered in the order `[3, 4]`. -/
theorem collect_groups_ex_eval : collect_groups exLims exLabels 4 = [[1, 2], [3, 4]] := by
  have e1 : dfsLoop exAdj [1] [] [] = ([2, 1], [1, 2]) := by
    rw [dfsLoop_cons_not_mem (by decide)]
    show dfsLoop exAdj [2] [1] [1] = ([2, 1], [1, 2])
    rw [dfsLoop_cons_not_mem (by decide)]
    show dfsLoop exAdj [] [2, 1] [1, 2] = ([2, 1], [1, 2])
    exact dfsLoop_nil _ _ _
  have e2 : dfsLoop exAdj [3] [2, 1] [] = ([4, 3, 2, 1], [3, 4]) := by
    rw [dfsLoop_cons_not_mem (by decide)]
    show dfsLoop exAdj [4] [3, 2, 1] [3] = ([4, 3, 2, 1], [3, 4])
    rw [dfsLoop_cons_not_mem (by decide)]
    show dfsLoop exAdj [] [4, 3, 2, 1] [3, 4] = ([4, 3, 2, 1], [3, 4])
    exact dfsLoop_nil _ _ _
  show extractLoop exAdj [1, 2, 3, 4] [] [] = [[1, 2], [3, 4]]
  show extractLoop exAdj [2, 3, 4] (dfsLoop exAdj [1] [] []).1
    ([] ++ [(dfsLoop exAdj [1] [] []).2]) = [[1, 2], [3, 4]]
  rw [e1]
  show extractLoop exAdj [4] (dfsLoop exAdj [3] [2, 1] []).1
    ([[1, 2]] ++ [(dfsLoop exAdj [3] [2, 1] []).2]) = [[1, 2], [3, 4]]
  rw [e2]
  rfl

/-! ## Claim C1 -/

/-- C1 counterexample: on a real Grouper run (`exLims`/`exLabels`, lookup
`exLookup`), the components `[1, 2]` and `[3, 4]` both link files 100 and
200 but encounter them in opposite orders, so the output contains TWO
`DuplicatePairRecord`s for the unordered pair (100, 200) — keyed `(100, 200)`
and `(200, 100)` — instead of the single merged record the claim requires. -/
theorem write_dedup_ordered_key_split_cex :
    collect_groups exLims exLabels 4 = [[1, 2], [3, 4]] ∧
      ((write_dedup_jsonl (collect_groups exLims exLabels 4) exLookup).filter
          (fun r =>
            (decide (r.original_file_id = 100) && decide (r.duplicate_file_id = 200))
              || (decide (r.original_file_id = 200) && decide (r.duplicate_file_id = 100)))).length
        = 2 := by
  refine ⟨collect_groups_ex_eval, ?_⟩
  rw [collect_groups_ex_eval]
  rfl

/-- C1 (amended): the pair map is keyed by the ORDERED pair of file ids in
first-seen order, so all evidence accumulated under one ordered key `(A, B)`
— in particular from two distinct components that both encounter `A` before
`B` — merges into exactly one record for that key, whose clips list is the
concatenation of every component's contribution in run order.  (Components
that encounter the files in the opposite order accumulate under `(B, A)` and
yield a second, separate record for the same unordered pair, which is what
the counterexample exhibits.) -/
theorem write_dedup_evidence_merge_ordered (gs : List (List Int)) (lk : Lookup) (A B : Int)
    (h : ((gs.map (fun g => pmVal (processGroup lk [] g) (A, B))).flatten) ≠ []) :
    ∃ r, (write_dedup_jsonl gs lk).filter
          (fun r => decide (r.original_file_id = A) && decide (r.duplicate_file_id = B)) = [r]
        ∧ r.clips = (gs.map (fun g => pmVal (processGroup lk [] g) (A, B))).flatten := by
  have hval := buildPairMap_val gs lk (A, B)
  have hne : pmVal (buildPairMap gs lk) (A, B) ≠ [] := by rw [hval]; exact h
  obtain ⟨q, hq⟩ : ∃ q, (buildPairMap gs lk).find? (fun p => decide (p.1 = (A, B))) = some q := by
    cases hfq : (buildPairMap gs lk).find? (fun p => decide (p.1 = (A, B))) with
    | none => exact absurd (by unfold pmVal; rw [hfq]; rfl) hne
    | some q => exact ⟨q, rfl⟩
  have hnd := (buildPairMap_inv gs lk).1
  have hfil := filter_map_finalize lk (A, B) (buildPairMap gs lk) hnd q hq
  refine ⟨finalizeRecord lk q, ?_, ?_⟩
  · exact hfil
  · have hq2 : pmVal (buildPairMap gs lk) (A, B) = q.2 := by
      unfold pmVal
      rw [hq]
      rfl
    rw [finalize_clips, ← hq2, hval]

/-- C1 witness for the amended theorem: two components that both see file
100 before file 200 produce one record with both clip pairs. -/
theorem write_dedup_evidence_merge_ordered_witness :
    ∃ r, (write_dedup_jsonl [[1, 2], [4, 3]] exLookup).filter
          (fun r => decide (r.original_file_id = 100) && decide (r.duplicate_file_id = 200)) = [r]
        ∧ r.clips = (([[1, 2], [4, 3]].map
            (fun g => pmVal (processGroup exLookup [] g) (100, 200))).flatten) :=
  write_dedup_evidence_merge_ordered [[1, 2], [4, 3]] exLookup 100 200 (by decide)

/-! ## Claim C3 -/

theorem length_le_one_of_same {l : List Int} (hnd : l.Nodup)
    (hsame : ∀ a ∈ l, ∀ b ∈ l, a = b) : l.length ≤ 1 := by
  match l with
  | [] => simp
  | [a] => simp
  | a :: b :: l =>
    have hab : a ≠ b := by
      have := List.nodup_cons.mp hnd
      intro hc
      exact this.1 (hc ▸ List.mem_cons_self b l)
    exact absurd (hsame a (List.mem_cons_self _ _) b (List.mem_cons_of_mem _ (List.mem_cons_self _ _))) hab

theorem byFileAdd_keys (bf : ByFile) (e : LookupRecord) :
    (byFileAdd bf e).map (fun p => p.1)
      = if e.file_id ∈ bf.map (fun p => p.1) then bf.map (fun p => p.1)
        else bf.map (fun p => p.1) ++ [e.file_id] := by
  induction bf with
  | nil => simp [byFileAdd]
  | cons a rest ih =>
    obtain ⟨k₀, l₀⟩ := a
    by_cases h0 : k₀ = e.file_id
    · subst h0
      simp [byFileAdd]
    · rw [show byFileAdd ((k₀, l₀) :: rest) e = (k₀, l₀) :: byFileAdd rest e from by
        simp [byFileAdd, h0]]
      rw [List.map_cons, ih, List.map_cons]
      by_cases hm : e.file_id ∈ rest.map (fun p => p.1)
      · rw [if_pos hm, if_pos (List.mem_cons_of_mem _ hm)]
      · rw [if_neg hm, if_neg (by
          intro hc
          rcases List.mem_cons.mp hc with hc | hc
          · exact h0 hc.symm
          · exact hm hc)]
        rfl

theorem byFileFold_go (entries : List LookupRecord) :
    ∀ bf : ByFile, (bf.map (fun p => p.1)).Nodup →
      ((entries.foldl byFileAdd bf).map (fun p => p.1)).Nodup ∧
        ∀ k ∈ (entries.foldl byFileAdd bf).map (fun p => p.1),
          k ∈ bf.map (fun p => p.1) ∨ ∃ e ∈ entries, e.file_id = k := by
  induction entries with
  | nil =>
    intro bf hnd
    exact ⟨hnd, fun k hk => Or.inl hk⟩
  | cons e entries ih =>
    intro bf hnd
    have hstep : ((byFileAdd bf e).map (fun p => p.1)).Nodup := by
      rw [byFileAdd_keys]
      by_cases hm : e.file_id ∈ bf.map (fun p => p.1)
      · rw [if_pos hm]; exact hnd
      · rw [if_neg hm, List.nodup_append]
        exact ⟨hnd, List.nodup_singleton _, by
          intro a ha hb
          rcases List.mem_singleton.mp hb with hb
          exact hm (hb ▸ ha)⟩
    obtain ⟨h1, h2⟩ := ih (byFileAdd bf e) hstep
    refine ⟨h1, fun k hk => ?_⟩
    rcases h2 k hk with hk' | ⟨e', he', hke⟩
    · rw [byFileAdd_keys] at hk'
      by_cases hm : e.file_id ∈ bf.map (fun p => p.1)
      · rw [if_pos hm] at hk'
        exact Or.inl hk'
      · rw [if_neg hm] at hk'
        rcases List.mem_append.mp hk' with hk' | hk'
        · exact Or.inl hk'
        · rcases List.mem_singleton.mp hk' with hk'
          exact Or.inr ⟨e, List.mem_cons_self _ _, hk'.symm⟩
    · exact Or.inr ⟨e', List.mem_cons_of_mem _ he', hke⟩

theorem byFileFold_keys_nodup (entries : List LookupRecord) :
    ((byFileFold entries).map (fun p => p.1)).Nodup :=
  (byFileFold_go entries [] (by simp)).1

theorem byFileFold_keys_sub (entries : List LookupRecord) :
    ∀ k ∈ (byFileFold entries).map (fun p => p.1), ∃ e ∈ entries, e.file_id = k := by
  intro k hk
  rcases (byFileFold_go entries [] (by simp)).2 k hk with hk' | h
  · simp at hk'
  · exact h

/-- C3: a component whose lookup-mapped entries number fewer than two, or
all share one `file_id`, contributes nothing to the output: the run with the
component writes exactly what the run without it writes. -/
theorem write_dedup_single_file_component_skipped (lk : Lookup) (gs₁ gs₂ : List (List Int))
    (g : List Int)
    (h : (mappedEntries lk g).length ≤ 1 ∨
      ∀ e₁ ∈ mappedEntries lk g, ∀ e₂ ∈ mappedEntries lk g, e₁.file_id = e₂.file_id) :
    write_dedup_jsonl (gs₁ ++ g :: gs₂) lk = write_dedup_jsonl (gs₁ ++ gs₂) lk := by
  have hpg : ∀ pm, processGroup lk pm g = pm := by
    intro pm
    unfold processGroup
    by_cases h1 : g.length ≤ 1
    · simp only [if_pos h1]
    rcases h with h2 | hsame
    · simp only [if_neg h1, if_pos h2]
    · by_cases h2 : (mappedEntries lk g).length ≤ 1
      · simp only [if_neg h1, if_pos h2]
      · have hkeys : ((byFileFold (mappedEntries lk g)).map (fun p => p.1)).length ≤ 1 := by
          apply length_le_one_of_same (byFileFold_keys_nodup _)
          intro a ha b hb
          obtain ⟨ea, hea, hka⟩ := byFileFold_keys_sub _ a ha
          obtain ⟨eb, heb, hkb⟩ := byFileFold_keys_sub _ b hb
          rw [← hka, ← hkb]
          exact hsame ea hea eb heb
        simp only [if_neg h1, if_neg h2, if_pos hkeys]
  unfold write_dedup_jsonl buildPairMap
  rw [List.foldl_append, List.foldl_cons, hpg, ← List.foldl_append]

/-- C3 witness: the component `[1, 4]` maps to two entries that both belong
to file 100, so the run `[[1, 4]]` writes exactly what the empty run writes
(nothing). -/
theorem write_dedup_single_file_component_skipped_witness :
    write_dedup_jsonl ([] ++ [1, 4] :: []) exLookup = write_dedup_jsonl ([] ++ []) exLookup :=
  write_dedup_single_file_component_skipped exLookup [] [] [1, 4] (Or.inr (by decide))

/-! ## Claim C7 -/

/-- C7: every accumulated file-pair key yields an output record whose names
come from the first accumulated clip-pair sub-record, whose durations are the
`duration` of the first `lookup.values()` entry (insertion order) with the
matching `file_id` — `0.0` when none matches — and whose clips field is the
full merged list. -/
theorem write_dedup_finalization_fields (gs : List (List Int)) (lk : Lookup)
    (k : Int × Int) (cps : List ClipPair)
    (h : pmFind (buildPairMap gs lk) k = some cps) :
    ∃ c0 rest, cps = c0 :: rest ∧
      ∃ r ∈ write_dedup_jsonl gs lk,
        r.original_file_id = k.1 ∧ r.duplicate_file_id = k.2 ∧
        r.original_file_name = c0.original.file_name ∧
        r.duplicate_file_name = c0.duplicate.file_name ∧
        r.original_duration
          = (match (lk.map (fun p => p.2)).find? (fun e => decide (e.file_id = k.1)) with
             | some e => e.duration
             | none => 0) ∧
        r.duplicate_duration
          = (match (lk.map (fun p => p.2)).find? (fun e => decide (e.file_id = k.2)) with
             | some e => e.duration
             | none => 0) ∧
        r.clips = cps := by
  unfold pmFind at h
  obtain ⟨q, hq, hq2⟩ := Option.map_eq_some'.mp h
  obtain ⟨hqmem, hqk⟩ := assoc_find_mem hq
  have hcpsne : cps ≠ [] := by
    rw [← hq2]
    exact (buildPairMap_inv gs lk).2 q hqmem
  obtain ⟨c0, rest, hcps⟩ := List.exists_cons_of_ne_nil hcpsne
  refine ⟨c0, rest, hcps, finalizeRecord lk q,
    List.mem_map_of_mem (finalizeRecord lk) hqmem, ?_, ?_, ?_, ?_, ?_, ?_, ?_⟩
  · rw [finalize_orig_id, hqk]
  · rw [finalize_dup_id, hqk]
  · have hdef : (finalizeRecord lk q).original_file_name
        = (q.2.headD { original := defaultSide, duplicate := defaultSide }).original.file_name :=
      rfl
    rw [hdef, hq2, hcps]
    rfl
  · have hdef : (finalizeRecord lk q).duplicate_file_name
        = (q.2.headD { original := defaultSide, duplicate := defaultSide }).duplicate.file_name :=
      rfl
    rw [hdef, hq2, hcps]
    rfl
  · have hdef : (finalizeRecord lk q).original_duration
        = (((lk.map (fun p => p.2)).filter
            (fun e => decide (e.file_id = q.1.1))).map (fun e => e.duration)).headD 0 := rfl
    rw [hdef, show q.1.1 = k.1 from by rw [hqk], filter_headD_eq_find]
  · have hdef : (finalizeRecord lk q).duplicate_duration
        = (((lk.map (fun p => p.2)).filter
            (fun e => decide (e.file_id = q.1.2))).map (fun e => e.duration)).headD 0 := rfl
    rw [hdef, show q.1.2 = k.2 from by rw [hqk], filter_headD_eq_find]
  · rw [finalize_clips, hq2]

/-- C7 witness: the single-component run `[[1, 2]]` over `exLookup`
accumulates one clip pair under key (100, 200); the theorem produces the
corresponding record with names from that pair and durations 10 and 20. -/
theorem write_dedup_finalization_fields_witness :
    ∃ c0 rest,
      [mkClipPair (exRec 1 "a.mp4" 100 10) (exRec 2 "b.mp4" 200 20)] = c0 :: rest ∧
      ∃ r ∈ write_dedup_jsonl [[1, 2]] exLookup,
        r.original_file_id = (100, 200).1 ∧ r.duplicate_file_id = (100, 200).2 ∧
        r.original_file_name = c0.original.file_name ∧
        r.duplicate_file_name = c0.duplicate.file_name ∧
        r.original_duration
          = (match (exLookup.map (fun p => p.2)).find?
                (fun e => decide (e.file_id = (100, 200).1)) with
             | some e => e.duration
             | none => 0) ∧
        r.duplicate_duration
          = (match (exLookup.map (fun p => p.2)).find?
                (fun e => decide (e.file_id = (100, 200).2)) with
             | some e => e.duration
             | none => 0) ∧
        r.clips = [mkClipPair (exRec 1 "a.mp4" 100 10) (exRec 2 "b.mp4" 200 20)] :=
  write_dedup_finalization_fields [[1, 2]] exLookup (100, 200)
    [mkClipPair (exRec 1 "a.mp4" 100 10) (exRec 2 "b.mp4" 200 20)] (by decide)

/-! ## Adjacency-building lemmas -/

@[simp] theorem adjVal_nil (x : Int) : adjVal [] x = [] := rfl

@[simp] theorem adjKeys_nil : adjKeys [] = [] := rfl

theorem adjVal_cons (p : Int × List Int) (rest : Adj) (x : Int) :
    adjVal (p :: rest) x = if p.1 = x then p.2 else adjVal rest x := by
  unfold adjVal
  exact assocVal_cons [] p rest x

theorem adjVal_addEdgeDir_self (g : Adj) (a b : Int) :
    adjVal (addEdgeDir g a b) a
      = if b ∈ adjVal g a then adjVal g a else adjVal g a ++ [b] := by
  induction g with
  | nil =>
    rw [show addEdgeDir [] a b = [(a, [b])] from rfl, adjVal_cons]
    simp
  | cons p rest ih =>
    obtain ⟨k₀, ns⟩ := p
    by_cases h0 : k₀ = a
    · subst h0
      rw [show addEdgeDir ((k₀, ns) :: rest) k₀ b
          = (k₀, if b ∈ ns then ns else ns ++ [b]) :: rest from by simp [addEdgeDir]]
      rw [adjVal_cons, adjVal_cons]
      simp
  
    · rw [show addEdgeDir ((k₀, ns) :: rest) a b = (k₀, ns) :: addEdgeDir rest a b from by
        simp [addEdgeDir, h0]]
      rw [adjVal_cons, adjVal_cons, if_neg h0, if_neg h0, ih]

theorem adjVal_addEdgeDir_other (g : Adj) (a b x : Int) (h : x ≠ a) :
    adjVal (addEdgeDir g a b) x = adjVal g x := by
  induction g with
  | nil =>
    rw [show addEdgeDir [] a b = [(a, [b])] from rfl, adjVal_cons,
      if_neg (fun hc : a = x => h hc.symm)]
  | cons p rest ih =>
    obtain ⟨k₀, ns⟩ := p
    by_cases h0 : k₀ = a
    · subst h0
      rw [show addEdgeDir ((k₀, ns) :: rest) k₀ b
          = (k₀, if b ∈ ns then ns else ns ++ [b]) :: rest from by simp [addEdgeDir]]
      rw [adjVal_cons, adjVal_cons, if_neg (fun hc : k₀ = x => h (hc.symm)),
        if_neg (fun hc : k₀ = x => h (hc.symm))]
    · rw [show addEdgeDir ((k₀, ns) :: rest) a b = (k₀, ns) :: addEdgeDir rest a b from by
        simp [addEdgeDir, h0]]
      rw [adjVal_cons, adjVal_cons, ih]

theorem mem_adjVal_addEdgeDir (g : Adj) (a b x y : Int) :
    y ∈ adjVal (addEdgeDir g a b) x ↔ y ∈ adjVal g x ∨ (x = a ∧ y = b) := by
  by_cases hx : x = a
  · subst hx
    rw [adjVal_addEdgeDir_self]
    by_cases hb : b ∈ adjVal g x
    · rw [if_pos hb]
      constructor
      · exact fun h => Or.inl h
      · rintro (h | ⟨-, rfl⟩)
        · exact h
        · exact hb
    · rw [if_neg hb]
      rw [List.mem_append, List.mem_singleton]
      constructor
      · rintro (h | rfl)
        · exact Or.inl h
        · exact Or.inr ⟨rfl, rfl⟩
      · rintro (h | ⟨-, rfl⟩)
        · exact Or.inl h
        · exact Or.inr rfl
  · rw [adjVal_addEdgeDir_other g a b x hx]
    simp [hx]

theorem mem_adjKeys_addEdgeDir (g : Adj) (a b x : Int) :
    x ∈ adjKeys (addEdgeDir g a b) ↔ x ∈ adjKeys g ∨ x = a := by
  induction g with
  | nil => simp [addEdgeDir, adjKeys, eq_comm]
  | cons p rest ih =>
    obtain ⟨k₀, ns⟩ := p
    by_cases h0 : k₀ = a
    · subst h0
      rw [show addEdgeDir ((k₀, ns) :: rest) k₀ b
          = (k₀, if b ∈ ns then ns else ns ++ [b]) :: rest from by simp [addEdgeDir]]
      unfold adjKeys
      simp only [List.map_cons, List.mem_cons]
      constructor
      · rintro (h | h)
        · exact Or.inl (Or.inl h)
        · exact Or.inl (Or.inr h)
      · rintro ((h | h) | h)
        · exact Or.inl h
        · exact Or.inr h
        · exact Or.inl h
    · rw [show addEdgeDir ((k₀, ns) :: rest) a b = (k₀, ns) :: addEdgeDir rest a b from by
        simp [addEdgeDir, h0]]
      unfold adjKeys at ih ⊢
      simp only [List.map_cons, List.mem_cons]
      rw [ih]
      tauto

theorem mem_adjVal_addEdge (g : Adj) (a b x y : Int) :
    y ∈ adjVal (addEdge g a b) x
      ↔ y ∈ adjVal g x ∨ (x = a ∧ y = b) ∨ (x = b ∧ y = a) := by
  unfold addEdge
  rw [mem_adjVal_addEdgeDir, mem_adjVal_addEdgeDir]
  tauto

theorem mem_adjKeys_addEdge (g : Adj) (a b x : Int) :
    x ∈ adjKeys (addEdge g a b) ↔ x ∈ adjKeys g ∨ x = a ∨ x = b := by
  unfold addEdge
  rw [mem_adjKeys_addEdgeDir, mem_adjKeys_addEdgeDir]
  tauto

theorem processRowAux_val (qid : Int) (js : List Int) :
    ∀ (g : Adj) (x y : Int),
      y ∈ adjVal (js.foldl (fun g j => if j = -1 ∨ j = qid then g else addEdge g qid j) g) x
        ↔ y ∈ adjVal g x ∨ ∃ j ∈ js, j ≠ -1 ∧ j ≠ qid ∧
            ((x = qid ∧ y = j) ∨ (x = j ∧ y = qid)) := by
  induction js with
  | nil => simp
  | cons j js ih =>
    intro g x y
    rw [List.foldl_cons]
    simp only [List.mem_cons, exists_eq_or_imp]
    by_cases hj : j = -1 ∨ j = qid
    · rw [if_pos hj, ih]
      constructor
      · rintro (h | h)
        · exact Or.inl h
        · exact Or.inr (Or.inr h)
      · rintro (h | ⟨hne1, hne2, hxy⟩ | h)
        · exact Or.inl h
        · rcases hj with hj | hj
          · exact absurd hj hne1
          · exact absurd hj hne2
        · exact Or.inr h
    · rw [not_or] at hj
      rw [if_neg (by rw [not_or]; exact hj), ih, mem_adjVal_addEdge]
      constructor
      · rintro ((h | hxy | hxy) | h)
        · exact Or.inl h
        · exact Or.inr (Or.inl ⟨hj.1, hj.2, Or.inl hxy⟩)
        · exact Or.inr (Or.inl ⟨hj.1, hj.2, Or.inr hxy⟩)
        · exact Or.inr (Or.inr h)
      · rintro (h | ⟨-, -, hxy | hxy⟩ | h)
        · exact Or.inl (Or.inl h)
        · exact Or.inl (Or.inr (Or.inl hxy))
        · exact Or.inl (Or.inr (Or.inr hxy))
        · exact Or.inr h

theorem mem_processRow_val (g : Adj) (row : List Int) (x y : Int) :
    y ∈ adjVal (processRow g row) x ↔ y ∈ adjVal g x ∨ edgeInRow row x y := by
  cases row with
  | nil => simp [processRow, edgeInRow]
  | cons qid rs =>
    show y ∈ adjVal ((qid :: rs).foldl
        (fun g j => if j = -1 ∨ j = qid then g else addEdge g qid j) g) x
      ↔ y ∈ adjVal g x ∨ edgeInRow (qid :: rs) x y
    rw [processRowAux_val]
    rfl

theorem processRowAux_keys (qid : Int) (js : List Int) :
    ∀ (g : Adj) (x : Int),
      x ∈ adjKeys (js.foldl (fun g j => if j = -1 ∨ j = qid then g else addEdge g qid j) g)
        ↔ x ∈ adjKeys g ∨ ∃ j ∈ js, j ≠ -1 ∧ j ≠ qid ∧ (x = qid ∨ x = j) := by
  induction js with
  | nil => simp
  | cons j js ih =>
    intro g x
    rw [List.foldl_cons]
    simp only [List.mem_cons, exists_eq_or_imp]
    by_cases hj : j = -1 ∨ j = qid
    · rw [if_pos hj, ih]
      constructor
      · rintro (h | h)
        · exact Or.inl h
        · exact Or.inr (Or.inr h)
      · rintro (h | ⟨hne1, hne2, hx⟩ | h)
        · exact Or.inl h
        · rcases hj with hj | hj
          · exact absurd hj hne1
          · exact absurd hj hne2
        · exact Or.inr h
    · rw [not_or] at hj
      rw [if_neg (by rw [not_or]; exact hj), ih, mem_adjKeys_addEdge]
      constructor
      · rintro ((h | hx | hx) | h)
        · exact Or.inl h
        · exact Or.inr (Or.inl ⟨hj.1, hj.2, Or.inl hx⟩)
        · exact Or.inr (Or.inl ⟨hj.1, hj.2, Or.inr hx⟩)
        · exact Or.inr (Or.inr h)
      · rintro (h | ⟨-, -, hx | hx⟩ | h)
        · exact Or.inl (Or.inl h)
        · exact Or.inl (Or.inr (Or.inl hx))
        · exact Or.inl (Or.inr (Or.inr hx))
        · exact Or.inr h

theorem mem_processRow_keys (g : Adj) (row : List Int) (x : Int) :
    x ∈ adjKeys (processRow g row) ↔ x ∈ adjKeys g ∨ ∃ y, edgeInRow row x y := by
  cases row with
  | nil => simp [processRow, edgeInRow]
  | cons qid rs =>
    show x ∈ adjKeys ((qid :: rs).foldl
        (fun g j => if j = -1 ∨ j = qid then g else addEdge g qid j) g)
      ↔ x ∈ adjKeys g ∨ ∃ y, edgeInRow (qid :: rs) x y
    rw [processRowAux_keys]
    show _ ↔ x ∈ adjKeys g ∨ ∃ y, ∃ j ∈ qid :: rs, j ≠ -1 ∧ j ≠ qid ∧
      ((x = qid ∧ y = j) ∨ (x = j ∧ y = qid))
    constructor
    · rintro (h | ⟨j, hmem, hne1, hne2, hx⟩)
      · exact Or.inl h
      · rcases hx with hx | hx
        · exact Or.inr ⟨j, j, hmem, hne1, hne2, Or.inl ⟨hx, rfl⟩⟩
        · exact Or.inr ⟨qid, j, hmem, hne1, hne2, Or.inr ⟨hx, rfl⟩⟩
    · rintro (h | ⟨y, j, hmem, hne1, hne2, hxy⟩)
      · exact Or.inl h
      · rcases hxy with ⟨rfl, rfl⟩ | ⟨rfl, rfl⟩
        · exact Or.inr ⟨y, hmem, hne1, hne2, Or.inl rfl⟩
        · exact Or.inr ⟨x, hmem, hne1, hne2, Or.inr rfl⟩

theorem buildAux_val (lims : List Nat) (labels : List Int) (qis : List Nat) :
    ∀ (g : Adj) (x y : Int),
      y ∈ adjVal (qis.foldl (fun g qi => processRow g (rowSlice lims labels qi)) g) x
        ↔ y ∈ adjVal g x ∨ ∃ qi ∈ qis, edgeInRow (rowSlice lims labels qi) x y := by
  induction qis with
  | nil => simp
  | cons qi qis ih =>
    intro g x y
    rw [List.foldl_cons, ih, mem_processRow_val]
    simp only [List.mem_cons, exists_eq_or_imp]
    tauto

theorem buildAux_keys (lims : List Nat) (labels : List Int) (qis : List Nat) :
    ∀ (g : Adj) (x : Int),
      x ∈ adjKeys (qis.foldl (fun g qi => processRow g (rowSlice lims labels qi)) g)
        ↔ x ∈ adjKeys g ∨ ∃ qi ∈ qis, ∃ y, edgeInRow (rowSlice lims labels qi) x y := by
  induction qis with
  | nil => simp
  | cons qi qis ih =>
    intro g x
    rw [List.foldl_cons, ih, mem_processRow_keys]
    simp only [List.mem_cons, exists_eq_or_imp]
    tauto

/-- The neighbor sets of the built adjacency structure are exactly the edge
relation of the range-search result. -/
theorem mem_buildAdjacency_val (lims : List Nat) (labels : List Int) (n : Nat) (x y : Int) :
    y ∈ adjVal (buildAdjacency lims labels n) x ↔ IsEdge lims labels n x y := by
  unfold buildAdjacency IsEdge
  rw [buildAux_val]
  simp [List.mem_range]

/-- The keys of the built adjacency structure are exactly the edge-incident
ids of the range-search result. -/
theorem mem_buildAdjacency_keys (lims : List Nat) (labels : List Int) (n : Nat) (x : Int) :
    x ∈ adjKeys (buildAdjacency lims labels n) ↔ ∃ y, IsEdge lims labels n x y := by
  unfold buildAdjacency IsEdge
  rw [buildAux_keys]
  simp only [adjKeys_nil, List.mem_nil_iff, false_or, List.mem_range]
  constructor
  · rintro ⟨qi, hlt, y, hrow⟩
    exact ⟨y, qi, hlt, hrow⟩
  · rintro ⟨y, qi, hlt, hrow⟩
    exact ⟨qi, hlt, y, hrow⟩

/-! ## DFS specification -/

/-- Full specification of the inner DFS loop: it appends to `comp` a
duplicate-free block `Δ` of previously unvisited nodes, each reachable from
the stack; the final visited set is `visited ∪ Δ`; every stack element ends
up visited; and if the initial visited set is adjacency-closed modulo the
stack, the final visited set is adjacency-closed. -/
theorem dfsLoop_spec (adj : Adj) (stack visited comp : List Int) :
    ∃ Δ : List Int,
      (dfsLoop adj stack visited comp).2 = comp ++ Δ ∧
      (∀ x, x ∈ (dfsLoop adj stack visited comp).1 ↔ x ∈ Δ ∨ x ∈ visited) ∧
      Δ.Nodup ∧
      (∀ x ∈ Δ, x ∉ visited) ∧
      (∀ x ∈ Δ, ∃ s ∈ stack, Reaches adj s x) ∧
      (∀ s ∈ stack, s ∈ (dfsLoop adj stack visited comp).1) ∧
      ((∀ x ∈ visited, ∀ y ∈ adjVal adj x, y ∈ visited ∨ y ∈ stack) →
        ∀ x ∈ (dfsLoop adj stack visited comp).1, ∀ y ∈ adjVal adj x,
          y ∈ (dfsLoop adj stack visited comp).1) := by
  induction stack, visited, comp using dfsLoop.induct adj with
  | case1 visited comp =>
    rw [dfsLoop_nil]
    refine ⟨[], by simp, fun x => by simp, List.nodup_nil, by simp, by simp, by simp, ?_⟩
    intro hcl x hx y hy
    rcases hcl x hx y hy with h | h
    · exact h
    · simp at h
  | case2 visited comp cur rest hmem ih =>
    obtain ⟨Δ, h1, h2, h3, h4, h5, h6, h7⟩ := ih
    rw [dfsLoop_cons_mem hmem]
    refine ⟨Δ, h1, h2, h3, h4, ?_, ?_, ?_⟩
    · intro x hx
      obtain ⟨s, hs, hr⟩ := h5 x hx
      exact ⟨s, List.mem_cons_of_mem _ hs, hr⟩
    · intro s hs
      rcases List.mem_cons.mp hs with rfl | hs
      · exact (h2 s).mpr (Or.inr hmem)
      · exact h6 s hs
    · intro hcl
      apply h7
      intro x hx y hy
      rcases hcl x hx y hy with h | h
      · exact Or.inl h
      · rcases List.mem_cons.mp h with rfl | h
        · exact Or.inl hmem
        · exact Or.inr h
  | case3 visited comp cur rest hnmem ih =>
    obtain ⟨Δ', h1, h2, h3, h4, h5, h6, h7⟩ := ih
    rw [dfsLoop_cons_not_mem hnmem]
    refine ⟨cur :: Δ', ?_, ?_, ?_, ?_, ?_, ?_, ?_⟩
    · rw [h1]
      simp
    · intro x
      rw [h2 x]
      simp only [List.mem_cons]
      tauto
    · refine List.nodup_cons.mpr ⟨?_, h3⟩
      intro hc
      exact (h4 cur hc) (List.mem_cons_self _ _)
    · intro x hx
      rcases List.mem_cons.mp hx with rfl | hx
      · exact hnmem
      · intro hv
        exact (h4 x hx) (List.mem_cons_of_mem _ hv)
    · intro x hx
      rcases List.mem_cons.mp hx with rfl | hx
      · exact ⟨x, List.mem_cons_self _ _, Relation.ReflTransGen.refl⟩
      · obtain ⟨s, hs, hr⟩ := h5 x hx
        rcases List.mem_append.mp hs with hs | hs
        · rw [List.mem_reverse] at hs
          have hs' := List.mem_filter.mp hs
          refine ⟨cur, List.mem_cons_self _ _, ?_⟩
          exact Relation.ReflTransGen.head hs'.1 hr
        · exact ⟨s, List.mem_cons_of_mem _ hs, hr⟩
    · intro s hs
      rcases List.mem_cons.mp hs with rfl | hs
      · exact (h2 s).mpr (Or.inr (List.mem_cons_self _ _))
      · exact h6 s (List.mem_append.mpr (Or.inr hs))
    · intro hcl
      apply h7
      intro x hx y hy
      rcases List.mem_cons.mp hx with rfl | hx
      · by_cases hyv : y ∈ x :: visited
        · exact Or.inl hyv
        · refine Or.inr (List.mem_append.mpr (Or.inl ?_))
          rw [List.mem_reverse]
          exact List.mem_filter.mpr ⟨hy, by simpa using hyv⟩
      · rcases hcl x hx y hy with h | h
        · exact Or.inl (List.mem_cons_of_mem _ h)
        · rcases List.mem_cons.mp h with rfl | h
          · exact Or.inl (List.mem_cons_self _ _)
          · exact Or.inr (List.mem_append.mpr (Or.inr h))

/-! ## Reachability utilities -/

theorem mem_of_reaches_closed {adj : Adj} {V : List Int} {r x : Int}
    (hcl : ∀ x ∈ V, ∀ y ∈ adjVal adj x, y ∈ V) (hroot : r ∈ V)
    (h : Reaches adj r x) : x ∈ V := by
  induction h with
  | refl => exact hroot
  | tail _ hbc ih => exact hcl _ ih _ hbc

theorem reaches_symm {adj : Adj} (hsym : SymmP adj) {x y : Int}
    (h : Reaches adj x y) : Reaches adj y x := by
  induction h with
  | refl => exact Relation.ReflTransGen.refl
  | tail _ hbc ih => exact Relation.ReflTransGen.head (hsym _ _ hbc) ih

theorem reaches_not_mem_closed {adj : Adj} {V : List Int} {r x : Int}
    (hcl : ∀ x ∈ V, ∀ y ∈ adjVal adj x, y ∈ V) (hsym : SymmP adj)
    (hroot : r ∉ V) (h : Reaches adj r x) : x ∉ V := by
  induction h with
  | refl => exact hroot
  | tail _ hbc ih =>
    intro hc
    exact ih (hcl _ hc _ (hsym _ _ hbc))

theorem reaches_mem_keys {adj : Adj} (hkey : KeyIffNeighbor adj) (hsym : SymmP adj)
    {r x : Int} (hr : r ∈ adjKeys adj) (h : Reaches adj r x) : x ∈ adjKeys adj := by
  induction h with
  | refl => exact hr
  | tail _ hbc _ => exact (hkey _).mpr ⟨_, hsym _ _ hbc⟩

/-! ## Invariants of the built adjacency structure -/

theorem edgeInRow_symm (row : List Int) (x y : Int) :
    edgeInRow row x y → edgeInRow row y x := by
  cases row with
  | nil => exact id
  | cons qid rs =>
    rintro ⟨j, hmem, h1, h2, hxy | hxy⟩
    · exact ⟨j, hmem, h1, h2, Or.inr ⟨hxy.2, hxy.1⟩⟩
    · exact ⟨j, hmem, h1, h2, Or.inl ⟨hxy.2, hxy.1⟩⟩

theorem edgeInRow_irrefl (row : List Int) (x : Int) : ¬ edgeInRow row x x := by
  cases row with
  | nil => exact id
  | cons qid rs =>
    rintro ⟨j, hmem, h1, h2, ⟨hx1, hx2⟩ | ⟨hx1, hx2⟩⟩
    · exact h2 (hx2.symm.trans hx1)
    · exact h2 (hx1.symm.trans hx2)

theorem isEdge_symm {lims : List Nat} {labels : List Int} {n : Nat} {x y : Int} :
    IsEdge lims labels n x y → IsEdge lims labels n y x :=
  fun ⟨qi, hlt, hrow⟩ => ⟨qi, hlt, edgeInRow_symm _ _ _ hrow⟩

theorem isEdge_irrefl (lims : List Nat) (labels : List Int) (n : Nat) (x : Int) :
    ¬ IsEdge lims labels n x x :=
  fun ⟨_, _, hrow⟩ => edgeInRow_irrefl _ _ hrow

theorem buildAdjacency_symm (lims : List Nat) (labels : List Int) (n : Nat) :
    SymmP (buildAdjacency lims labels n) := by
  intro x y h
  rw [mem_buildAdjacency_val] at h ⊢
  exact isEdge_symm h

theorem buildAdjacency_noself (lims : List Nat) (labels : List Int) (n : Nat) :
    NoSelfStep (buildAdjacency lims labels n) := by
  intro x h
  rw [mem_buildAdjacency_val] at h
  exact isEdge_irrefl lims labels n x h

theorem buildAdjacency_keyIff (lims : List Nat) (labels : List Int) (n : Nat) :
    KeyIffNeighbor (buildAdjacency lims labels n) := by
  intro x
  rw [mem_buildAdjacency_keys]
  exact exists_congr fun y => (mem_buildAdjacency_val lims labels n x y).symm

/-! ## Claim C4 -/

/-- C4 counterexample: a query row whose FIRST reported label is the sentinel
`-1` makes the code take `qid = -1` and add an undirected edge between `-1`
and the genuine neighbor 5 — the sentinel is only filtered out of the inner
`jid` position, not the canonical one. -/
theorem collect_groups_sentinel_edge_cex :
    (5 : Int) ∈ adjVal (buildAdjacency [0, 2] [-1, 5] 1) (-1) ∧
      (-1 : Int) ∈ adjKeys (buildAdjacency [0, 2] [-1, 5] 1) ∧
      (-1 : Int) ∈ adjVal (buildAdjacency [0, 2] [-1, 5] 1) 5 := by
  decide

theorem edgeInRow_ne_sentinel {row : List Int} (hhead : row.head? ≠ some (-1)) {x y : Int} :
    edgeInRow row x y → x ≠ -1 ∧ y ≠ -1 := by
  cases row with
  | nil => exact fun h => absurd h id
  | cons qid rs =>
    have hqid : qid ≠ -1 := by
      intro hc
      exact hhead (by rw [hc]; rfl)
    rintro ⟨j, hmem, h1, h2, ⟨hx, hy⟩ | ⟨hx, hy⟩⟩
    · exact ⟨hx ▸ hqid, hy ▸ h1⟩
    · exact ⟨hx ▸ h1, hy ▸ hqid⟩

/-- C4 (amended): the graph never contains a self-loop, for every
range-search result; and PROVIDED no non-empty query row reports the
sentinel `-1` as its first label, no edge is ever incident to `-1` (the
counterexample shows the proviso is necessary: a row starting with `-1`
does add edges at `-1`). -/
theorem collect_groups_no_sentinel_or_self_edges (lims : List Nat) (labels : List Int)
    (n : Nat) :
    (∀ x : Int, x ∉ adjVal (buildAdjacency lims labels n) x) ∧
      ((∀ qi, qi < n → (rowSlice lims labels qi).head? ≠ some (-1)) →
        (-1 : Int) ∉ adjKeys (buildAdjacency lims labels n) ∧
          ∀ x : Int, (-1 : Int) ∉ adjVal (buildAdjacency lims labels n) x) := by
  refine ⟨buildAdjacency_noself lims labels n, fun hhead => ⟨?_, ?_⟩⟩
  · rw [mem_buildAdjacency_keys]
    rintro ⟨y, qi, hlt, hrow⟩
    exact (edgeInRow_ne_sentinel (hhead qi hlt) hrow).1 rfl
  · intro x h
    rw [mem_buildAdjacency_val] at h
    obtain ⟨qi, hlt, hrow⟩ := h
    exact (edgeInRow_ne_sentinel (hhead qi hlt) hrow).2 rfl

/-- C4 witness: on a well-formed result (row `[7, 8]`) there is no self-loop
and nothing incident to `-1`. -/
theorem collect_groups_no_sentinel_or_self_edges_witness :
    (∀ x : Int, x ∉ adjVal (buildAdjacency [0, 2] [7, 8] 1) x) ∧
      ((-1 : Int) ∉ adjKeys (buildAdjacency [0, 2] [7, 8] 1) ∧
        ∀ x : Int, (-1 : Int) ∉ adjVal (buildAdjacency [0, 2] [7, 8] 1) x) := by
  have h := collect_groups_no_sentinel_or_self_edges [0, 2] [7, 8] 1
  refine ⟨h.1, h.2 ?_⟩
  intro qi hq
  have hqi : qi = 0 := by omega
  subst hqi
  decide

/-! ## Component extraction specification -/

/-- The DFS launched on a single unvisited root, against an adjacency-closed
visited set and a symmetric adjacency, collects exactly the reachable set of
the root, without duplicates; the resulting visited set is `visited ∪ comp`
and is again adjacency-closed. -/
theorem dfsLoop_root (adj : Adj) (r : Int) (visited : List Int)
    (hsym : SymmP adj) (hcl : ∀ x ∈ visited, ∀ y ∈ adjVal adj x, y ∈ visited)
    (hr : r ∉ visited) :
    (∀ y, y ∈ (dfsLoop adj [r] visited []).2 ↔ Reaches adj r y) ∧
      (dfsLoop adj [r] visited []).2.Nodup ∧
      (∀ x, x ∈ (dfsLoop adj [r] visited []).1
        ↔ x ∈ (dfsLoop adj [r] visited []).2 ∨ x ∈ visited) ∧
      (∀ x ∈ (dfsLoop adj [r] visited []).1, ∀ y ∈ adjVal adj x,
        y ∈ (dfsLoop adj [r] visited []).1) := by
  obtain ⟨Δ, h1, h2, h3, h4, h5, h6, h7⟩ := dfsLoop_spec adj [r] visited []
  have hΔ : (dfsLoop adj [r] visited []).2 = Δ := by rw [h1]; rfl
  have hclosed : ∀ x ∈ (dfsLoop adj [r] visited []).1, ∀ y ∈ adjVal adj x,
      y ∈ (dfsLoop adj [r] visited []).1 := by
    apply h7
    intro x hx y hy
    exact Or.inl (hcl x hx y hy)
  have hrin : r ∈ (dfsLoop adj [r] visited []).1 := h6 r (List.mem_singleton.mpr rfl)
  refine ⟨?_, hΔ ▸ h3, fun x => hΔ ▸ h2 x, hclosed⟩
  intro y
  rw [hΔ]
  constructor
  · intro hy
    obtain ⟨s, hs, hrs⟩ := h5 y hy
    rcases List.mem_singleton.mp hs with rfl
    exact hrs
  · intro hy
    have hy1 : y ∈ (dfsLoop adj [r] visited []).1 :=
      mem_of_reaches_closed hclosed hrin hy
    rcases (h2 y).mp hy1 with h | h
    · exact h
    · exact absurd h (reaches_not_mem_closed hcl hsym hr hy)

theorem extractLoop_nil (adj : Adj) (visited : List Int) (groups : List (List Int)) :
    extractLoop adj [] visited groups = groups := rfl

theorem extractLoop_cons_mem {adj : Adj} {node : Int} {rest visited : List Int}
    {groups : List (List Int)} (h : node ∈ visited) :
    extractLoop adj (node :: rest) visited groups = extractLoop adj rest visited groups := by
  simp [extractLoop, h]

theorem extractLoop_cons_not_mem {adj : Adj} {node : Int} {rest visited : List Int}
    {groups : List (List Int)} (h : node ∉ visited) :
    extractLoop adj (node :: rest) visited groups
      = extractLoop adj rest (dfsLoop adj [node] visited []).1
          (groups ++ [(dfsLoop adj [node] visited []).2]) := by
  simp [extractLoop, h]

/-- Full specification of the outer component-extraction loop. -/
theorem extractLoop_spec (adj : Adj) (hsym : SymmP adj) :
    ∀ (nodes visited : List Int) (groups : List (List Int)),
      (∀ x ∈ visited, ∀ y ∈ adjVal adj x, y ∈ visited) →
      ∃ newGs, extractLoop adj nodes visited groups = groups ++ newGs ∧
        (∀ g ∈ newGs, g.Nodup ∧
          ∃ r, r ∉ visited ∧ r ∈ nodes ∧ ∀ y, (y ∈ g ↔ Reaches adj r y)) ∧
        (∀ x ∈ visited, ∀ g ∈ newGs, x ∉ g) ∧
        List.Pairwise (fun g h => ∀ x ∈ g, x ∉ h) newGs ∧
        (∀ nd ∈ nodes, nd ∈ visited ∨ ∃ g ∈ newGs, nd ∈ g) := by
  intro nodes
  induction nodes with
  | nil =>
    intro visited groups hcl
    exact ⟨[], by simp [extractLoop_nil], by simp, by simp, by simp, by simp⟩
  | cons node rest ih =>
    intro visited groups hcl
    by_cases hv : node ∈ visited
    · obtain ⟨newGs, e1, e2, e3, e4, e5⟩ := ih visited groups hcl
      refine ⟨newGs, ?_, ?_, e3, e4, ?_⟩
      · rw [extractLoop_cons_mem hv]
        exact e1
      · intro g hg
        obtain ⟨hnd, r, hr1, hr2, hr3⟩ := e2 g hg
        exact ⟨hnd, r, hr1, List.mem_cons_of_mem _ hr2, hr3⟩
      · intro nd hnd
        rcases List.mem_cons.mp hnd with rfl | hnd
        · exact Or.inl hv
        · exact e5 nd hnd
    · obtain ⟨hiff, hnodup, hvis, hclosed'⟩ := dfsLoop_root adj node visited hsym hcl hv
      have hsubset : ∀ x ∈ visited, x ∈ (dfsLoop adj [node] visited []).1 :=
        fun x hx => (hvis x).mpr (Or.inr hx)
      obtain ⟨newGs', e1', e2', e3', e4', e5'⟩ :=
        ih (dfsLoop adj [node] visited []).1 (groups ++ [(dfsLoop adj [node] visited []).2])
          hclosed'
      refine ⟨(dfsLoop adj [node] visited []).2 :: newGs', ?_, ?_, ?_, ?_, ?_⟩
      · rw [extractLoop_cons_not_mem hv, e1', List.append_assoc]
        rfl
      · intro g hg
        rcases List.mem_cons.mp hg with rfl | hg
        · exact ⟨hnodup, node, hv, List.mem_cons_self _ _, hiff⟩
        · obtain ⟨hnd, r, hr1, hr2, hr3⟩ := e2' g hg
          refine ⟨hnd, r, ?_, List.mem_cons_of_mem _ hr2, hr3⟩
          intro hc
          exact hr1 (hsubset r hc)
      · intro x hx g hg
        rcases List.mem_cons.mp hg with rfl | hg
        · intro hc
          exact reaches_not_mem_closed hcl hsym hv ((hiff x).mp hc) hx
        · exact e3' x (hsubset x hx) g hg
      · refine List.pairwise_cons.mpr ⟨?_, e4'⟩
        intro g hg x hx
        have hx1 : x ∈ (dfsLoop adj [node] visited []).1 := (hvis x).mpr (Or.inl hx)
        exact e3' x hx1 g hg
      · intro nd hnd
        rcases List.mem_cons.mp hnd with rfl | hnd
        · exact Or.inr ⟨(dfsLoop adj [nd] visited []).2, List.mem_cons_self _ _,
            (hiff nd).mpr Relation.ReflTransGen.refl⟩
        · rcases e5' nd hnd with hnd' | ⟨g, hg, hgx⟩
          · rcases (hvis nd).mp hnd' with h | h
            · exact Or.inr ⟨(dfsLoop adj [node] visited []).2, List.mem_cons_self _ _, h⟩
            · exact Or.inl h
          · exact Or.inr ⟨g, List.mem_cons_of_mem _ hg, hgx⟩

/-- Specification of `extractComponents`: every returned component is a
duplicate-free reachability class of one of the keys; distinct components
are disjoint; and every key lies in some component. -/
theorem extractComponents_spec (adj : Adj) (hsym : SymmP adj) :
    (∀ g ∈ extractComponents adj, g.Nodup ∧
      ∃ r, r ∈ adjKeys adj ∧ ∀ y, (y ∈ g ↔ Reaches adj r y)) ∧
      List.Pairwise (fun g h => ∀ x ∈ g, x ∉ h) (extractComponents adj) ∧
      (∀ k ∈ adjKeys adj, ∃ g ∈ extractComponents adj, k ∈ g) := by
  obtain ⟨newGs, e1, e2, e3, e4, e5⟩ :=
    extractLoop_spec adj hsym (adjKeys adj) [] [] (by simp)
  have he : extractComponents adj = newGs := by
    unfold extractComponents
    rw [e1]
    rfl
  rw [he]
  refine ⟨?_, e4, ?_⟩
  · intro g hg
    obtain ⟨hnd, r, _, hr2, hr3⟩ := e2 g hg
    exact ⟨hnd, r, hr2, hr3⟩
  · intro k hk
    rcases e5 k hk with h | h
    · simp at h
    · exact h

/-! ## Claim C2 -/

theorem countP_eq_one_of_disjoint (gs : List (List Int)) (x : Int)
    (hpw : List.Pairwise (fun g h => ∀ a ∈ g, a ∉ h) gs) :
    ∀ g₀ ∈ gs, x ∈ g₀ → gs.countP (fun g => decide (x ∈ g)) = 1 := by
  induction gs with
  | nil => intro g₀ hg₀; simp at hg₀
  | cons g gs ih =>
    intro g₀ hg₀ hx
    rw [List.countP_cons]
    rcases List.mem_cons.mp hg₀ with rfl | hg₀
    · have hzero : gs.countP (fun g => decide (x ∈ g)) = 0 := by
        rw [List.countP_eq_zero]
        intro h hh
        simp only [decide_eq_true_eq]
        exact (List.pairwise_cons.mp hpw).1 h hh x hx
      rw [hzero]
      simp [hx]
    · have hx_not_g : x ∉ g := by
        intro hc
        exact ((List.pairwise_cons.mp hpw).1 g₀ hg₀ x hc) hx
      rw [ih (List.pairwise_cons.mp hpw).2 g₀ hg₀ hx]
      simp [hx_not_g]

/-- C2: the components of a run are a partition of exactly the edge-incident
ids: an id lying in at least one edge of the range-search result lies in
exactly one component, and an id in no edge (including isolated query
points) lies in no component at all. -/
theorem collect_groups_partition (lims : List Nat) (labels : List Int) (n : Nat) (x : Int) :
    ((∃ y, IsEdge lims labels n x y) →
      (collect_groups lims labels n).countP (fun g => decide (x ∈ g)) = 1) ∧
      ((¬ ∃ y, IsEdge lims labels n x y) →
        (collect_groups lims labels n).countP (fun g => decide (x ∈ g)) = 0) := by
  have hsym := buildAdjacency_symm lims labels n
  have hkey := buildAdjacency_keyIff lims labels n
  obtain ⟨hcomps, hpw, hcov⟩ := extractComponents_spec _ hsym
  constructor
  · intro hedge
    have hxk : x ∈ adjKeys (buildAdjacency lims labels n) :=
      (mem_buildAdjacency_keys lims labels n x).mpr hedge
    obtain ⟨g₀, hg₀, hxg⟩ := hcov x hxk
    exact countP_eq_one_of_disjoint _ x hpw g₀ hg₀ hxg
  · intro hnoedge
    rw [List.countP_eq_zero]
    intro g hg
    simp only [decide_eq_true_eq]
    intro hxg
    obtain ⟨-, r, hrk, hiff⟩ := hcomps g hg
    have hxkeys : x ∈ adjKeys (buildAdjacency lims labels n) :=
      reaches_mem_keys hkey hsym hrk ((hiff x).mp hxg)
    exact hnoedge ((mem_buildAdjacency_keys lims labels n x).mp hxkeys)

/-- C2 witness: on the result with one edge `1–2`, id 1 lies in exactly one
component and the never-reported id 5 lies in none. -/
theorem collect_groups_partition_witness :
    (collect_groups [0, 2, 4] [1, 2, 2, 1] 2).countP (fun g => decide ((1 : Int) ∈ g)) = 1 ∧
      (collect_groups [0, 2, 4] [1, 2, 2, 1] 2).countP (fun g => decide ((5 : Int) ∈ g)) = 0 := by
  constructor
  · exact (collect_groups_partition [0, 2, 4] [1, 2, 2, 1] 2 1).1
      ⟨2, 0, by omega, 2, by decide, by decide, by decide, Or.inl ⟨rfl, rfl⟩⟩
  · refine (collect_groups_partition [0, 2, 4] [1, 2, 2, 1] 2 5).2 ?_
    rintro ⟨y, qi, hlt, hrow⟩
    have hqi : qi = 0 ∨ qi = 1 := by omega
    rcases hqi with rfl | rfl
    · obtain ⟨j, hj, h1, h2, ⟨h5, -⟩ | ⟨h5, -⟩⟩ := hrow
      · exact absurd h5 (by decide)
      · rw [← h5] at hj
        exact absurd hj (by decide)
    · obtain ⟨j, hj, h1, h2, ⟨h5, -⟩ | ⟨h5, -⟩⟩ := hrow
      · exact absurd h5 (by decide)
      · rw [← h5] at hj
        exact absurd hj (by decide)

/-! ## Claim C9 -/

theorem two_le_length_of_two_mem {l : List Int} (hnd : l.Nodup) {a b : Int}
    (ha : a ∈ l) (hb : b ∈ l) (hne : a ≠ b) : 2 ≤ l.length := by
  match l with
  | [] => simp at ha
  | [c] =>
    exact absurd ((List.mem_singleton.mp ha).trans (List.mem_singleton.mp hb).symm) hne
  | c :: d :: l' =>
    simp only [List.length_cons]
    omega

/-- C9: every component returned by `collect_groups` has at least two vector
ids — every adjacency key has a neighbor distinct from itself, and the
component is its full reachability class — so the `len(group) <= 1` guard of
`write_dedup_jsonl` is unreachable on Grouper output. -/
theorem collect_groups_min_size (lims : List Nat) (labels : List Int) (n : Nat)
    (g : List Int) (hg : g ∈ collect_groups lims labels n) : 2 ≤ g.length := by
  have hsym := buildAdjacency_symm lims labels n
  have hkey := buildAdjacency_keyIff lims labels n
  have hnoself := buildAdjacency_noself lims labels n
  obtain ⟨hcomps, -, -⟩ := extractComponents_spec _ hsym
  obtain ⟨hnd, r, hrk, hiff⟩ := hcomps g hg
  obtain ⟨y, hy⟩ := (hkey r).mp hrk
  have hrg : r ∈ g := (hiff r).mpr Relation.ReflTransGen.refl
  have hyg : y ∈ g := (hiff y).mpr (Relation.ReflTransGen.single hy)
  have hne : r ≠ y := by
    intro hc
    cases hc
    exact hnoself r hy
  exact two_le_length_of_two_mem hnd hrg hyg hne

/-- C9 witness: the component `[1, 2]` of the concrete run has length two. -/
theorem collect_groups_min_size_witness : 2 ≤ ([1, 2] : List Int).length :=
  collect_groups_min_size exLims exLabels 4 [1, 2]
    (by rw [collect_groups_ex_eval]; simp)

/-! ## Claim C8 -/

/-- A set of ids is a component of the extraction exactly when it is the
reachability class of some key — a characterization that depends only on the
set-level content of the adjacency structure. -/
theorem componentSets_char (adj : Adj) (hsym : SymmP adj) (S : Finset Int) :
    S ∈ componentSets adj
      ↔ ∃ r, r ∈ adjKeys adj ∧ ∀ y : Int, (y ∈ S ↔ Reaches adj r y) := by
  obtain ⟨hcomps, hpw, hcov⟩ := extractComponents_spec adj hsym
  unfold componentSets
  rw [List.mem_toFinset, List.mem_map]
  constructor
  · rintro ⟨g, hg, rfl⟩
    obtain ⟨-, r, hrk, hiff⟩ := hcomps g hg
    exact ⟨r, hrk, fun y => (List.mem_toFinset).trans (hiff y)⟩
  · rintro ⟨r, hrk, hS⟩
    obtain ⟨g, hg, hrg⟩ := hcov r hrk
    obtain ⟨-, r', -, hiff⟩ := hcomps g hg
    have hrr' : Reaches adj r' r := (hiff r).mp hrg
    refine ⟨g, hg, ?_⟩
    ext y
    rw [List.mem_toFinset, hiff y, hS y]
    constructor
    · intro h
      exact Relation.ReflTransGen.trans (reaches_symm hsym hrr') h
    · intro h
      exact Relation.ReflTransGen.trans hrr' h

/-- C8: component extraction is deterministic up to traversal order — any
adjacency structure carrying the same set-level data as the built one (any
reordering of the dict and of the neighbor sets, i.e. any iteration order of
the Python dict and sets) yields the same components viewed as a set of sets
of ids. -/
theorem collect_groups_order_independent (lims : List Nat) (labels : List Int) (n : Nat)
    (adj' : Adj) (hequiv : AdjEquiv adj' (buildAdjacency lims labels n)) :
    componentSets adj' = componentSets (buildAdjacency lims labels n) := by
  have hsym2 := buildAdjacency_symm lims labels n
  have hkey2 := buildAdjacency_keyIff lims labels n
  have hsym1 : SymmP adj' := fun x y h =>
    (hequiv.2 y x).mpr (hsym2 x y ((hequiv.2 x y).mp h))
  have hkey1 : KeyIffNeighbor adj' := by
    intro x
    rw [hequiv.1 x, hkey2 x]
    exact exists_congr fun y => (hequiv.2 x y).symm
  have hreach : ∀ x y, Reaches adj' x y ↔ Reaches (buildAdjacency lims labels n) x y := by
    intro x y
    constructor
    · intro h
      refine Relation.ReflTransGen.mono ?_ h
      intro a b hab
      exact (hequiv.2 a b).mp hab
    · intro h
      refine Relation.ReflTransGen.mono ?_ h
      intro a b hab
      exact (hequiv.2 a b).mpr hab
  ext S
  rw [componentSets_char adj' hsym1, componentSets_char _ hsym2]
  constructor
  · rintro ⟨r, hrk, hiff⟩
    exact ⟨r, (hequiv.1 r).mp hrk, fun y => (hiff y).trans (hreach r y)⟩
  · rintro ⟨r, hrk, hiff⟩
    exact ⟨r, (hequiv.1 r).mpr hrk, fun y => (hiff y).trans (hreach r y).symm⟩

/-- C8 witness: a reordered adjacency dict (key 2 first) yields the same
component sets as the one built from the range-search result. -/
theorem collect_groups_order_independent_witness :
    componentSets [(2, [1]), (1, [2])] = componentSets (buildAdjacency [0, 2, 4] [1, 2, 2, 1] 2) := by
  apply collect_groups_order_independent
  constructor
  · intro x
    show x ∈ ([2, 1] : List Int) ↔ x ∈ ([1, 2] : List Int)
    simp only [List.mem_cons, List.mem_singleton, List.not_mem_nil, or_false]
    tauto
  · intro x y
    by_cases h1 : x = 1
    · subst h1
      exact Iff.rfl
    by_cases h2 : x = 2
    · subst h2
      exact Iff.rfl
    · have ha : adjVal [(2, [1]), (1, [2])] x = [] := by
        rw [adjVal_cons, if_neg (fun hc : (2 : Int) = x => h2 hc.symm),
          adjVal_cons, if_neg (fun hc : (1 : Int) = x => h1 hc.symm)]
        rfl
      have hb : adjVal (buildAdjacency [0, 2, 4] [1, 2, 2, 1] 2) x = [] := by
        rw [show buildAdjacency [0, 2, 4] [1, 2, 2, 1] 2 = [(1, [2]), (2, [1])] from rfl,
          adjVal_cons, if_neg (fun hc : (1 : Int) = x => h1 hc.symm),
          adjVal_cons, if_neg (fun hc : (2 : Int) = x => h2 hc.symm)]
        rfl
      rw [ha, hb]

/-! ## Claim C5 -/

theorem except_ok_of_not_error {α β : Type} (x : Except α β)
    (h : ¬ ∃ msg, x = .error msg) : ∃ v, x = .ok v := by
  cases x with
  | error msg => exact absurd ⟨msg, rfl⟩ h
  | ok v => exact ⟨v, rfl⟩

theorem processClip_error_iff (e : RawEntry) (lk : Lookup) (c : RawClip) :
    (∃ msg, processClip e lk c = .error msg) ↔ (c.faiss_id ≠ none ∧ MissingReq e) := by
  unfold processClip MissingReq
  cases hc : c.faiss_id with
  | none => simp
  | some fid =>
    cases hf : e.file_id with
    | none => simp
    | some fileId =>
      cases hn : e.file_name with
      | none => simp
      | some fileName => simp

theorem processClips_error_iff (e : RawEntry) :
    ∀ (cs : List RawClip) (lk : Lookup),
      (∃ msg, processClips e lk cs = .error msg)
        ↔ ((∃ c ∈ cs, c.faiss_id ≠ none) ∧ MissingReq e) := by
  intro cs
  induction cs with
  | nil => intro lk; simp [processClips]
  | cons c cs ih =>
    intro lk
    by_cases hc : c.faiss_id ≠ none ∧ MissingReq e
    · obtain ⟨msg, hmsg⟩ := (processClip_error_iff e lk c).mpr hc
      rw [show processClips e lk (c :: cs) = .error msg from by
        unfold processClips; rw [hmsg]]
      refine iff_of_true ⟨msg, rfl⟩ ⟨⟨c, List.mem_cons_self _ _, hc.1⟩, hc.2⟩
    · obtain ⟨lk', hlk'⟩ := except_ok_of_not_error _
        (fun hex => hc ((processClip_error_iff e lk c).mp hex))
      rw [show processClips e lk (c :: cs) = processClips e lk' cs from by
        conv_lhs => rw [processClips]
        rw [hlk']]
      rw [ih lk']
      constructor
      · rintro ⟨⟨c', hc', hfid⟩, hmiss⟩
        exact ⟨⟨c', List.mem_cons_of_mem _ hc', hfid⟩, hmiss⟩
      · rintro ⟨⟨c', hc', hfid⟩, hmiss⟩
        rcases List.mem_cons.mp hc' with rfl | hc'
        · exact absurd ⟨hfid, hmiss⟩ hc
        · exact ⟨⟨c', hc', hfid⟩, hmiss⟩

theorem processEntry_error_iff (lk : Lookup) (e : RawEntry) :
    (∃ msg, processEntry lk e = .error msg) ↔ (HasIndexedVec e ∧ MissingReq e) := by
  unfold processEntry
  by_cases hv : e.media_type = some "video"
  · rw [if_pos hv, processClips_error_iff]
    unfold HasIndexedVec
    constructor
    · rintro ⟨hclips, hmiss⟩
      exact ⟨Or.inl ⟨hv, hclips⟩, hmiss⟩
    · rintro ⟨hvec | hvec, hmiss⟩
      · exact ⟨hvec.2, hmiss⟩
      · rw [hv] at hvec
        exact absurd (Option.some_injective _ hvec.1) (by decide)
  · rw [if_neg hv]
    by_cases hi : e.media_type = some "image"
    · rw [if_pos hi]
      have hiff : (∃ msg,
          (match e.faiss_id with
           | none => (.ok lk : Except String Lookup)
           | some fid =>
             match e.file_id with
             | none => .error "file_id"
             | some fileId =>
               match e.file_name with
               | none => .error "file_name"
               | some fileName =>
                 .ok (lookupInsert lk fid (mkImageRecord e fid fileId fileName))) = .error msg)
          ↔ (e.faiss_id ≠ none ∧ MissingReq e) := by
        unfold MissingReq
        cases e.faiss_id with
        | none => simp
        | some fid =>
          cases e.file_id with
          | none => simp
          | some fileId =>
            cases e.file_name with
            | none => simp
            | some fileName => simp
      rw [hiff]
      unfold HasIndexedVec
      constructor
      · rintro ⟨hfid, hmiss⟩
        exact ⟨Or.inr ⟨hi, hfid⟩, hmiss⟩
      · rintro ⟨hvec | hvec, hmiss⟩
        · rw [hi] at hvec
          exact absurd (Option.some_injective _ hvec.1) (by decide)
        · exact ⟨hvec.2, hmiss⟩
    · rw [if_neg hi]
      unfold HasIndexedVec
      constructor
      · rintro ⟨msg, hmsg⟩
        exact absurd hmsg (by simp)
      · rintro ⟨hvec | hvec, hmiss⟩
        · exact absurd hvec.1 hv
        · exact absurd hvec.1 hi

theorem build_id_lookup_go_error_iff :
    ∀ (db : List RawEntry) (lk : Lookup),
      (∃ msg, build_id_lookup_go lk db = .error msg)
        ↔ ∃ e ∈ db, HasIndexedVec e ∧ MissingReq e := by
  intro db
  induction db with
  | nil => intro lk; simp [build_id_lookup_go]
  | cons e rest ih =>
    intro lk
    by_cases he : HasIndexedVec e ∧ MissingReq e
    · obtain ⟨msg, hmsg⟩ := (processEntry_error_iff lk e).mpr he
      rw [show build_id_lookup_go lk (e :: rest) = .error msg from by
        unfold build_id_lookup_go; rw [hmsg]]
      exact iff_of_true ⟨msg, rfl⟩ ⟨e, List.mem_cons_self _ _, he⟩
    · obtain ⟨lk', hlk'⟩ := except_ok_of_not_error _
        (fun hex => he ((processEntry_error_iff lk e).mp hex))
      rw [show build_id_lookup_go lk (e :: rest) = build_id_lookup_go lk' rest from by
        conv_lhs => rw [build_id_lookup_go]
        rw [hlk']]
      rw [ih lk']
      constructor
      · rintro ⟨e', he', hfat⟩
        exact ⟨e', List.mem_cons_of_mem _ he', hfat⟩
      · rintro ⟨e', he', hfat⟩
        rcases List.mem_cons.mp he' with rfl | he'
        · exact absurd hfat he
        · exact ⟨e', he', hfat⟩

/-- C5 counterexample: an image entry with NO vector id that also misses
both `file_id` and `file_name` is silently skipped — `build_id_lookup`
returns an empty lookup instead of raising the required-field error the
claim demands for every entry with missing identifying fields. -/
theorem build_id_lookup_missing_fields_cex :
    exImageNoVec.file_id = none ∧ exImageNoVec.file_name = none ∧
      build_id_lookup [exImageNoVec] = .ok [] :=
  ⟨rfl, rfl, rfl⟩

/-- C5 (amended): `build_id_lookup` raises a required-field `KeyError` (and
aborts) exactly when some entry that carries an indexed vector id — a video
entry with a clip whose `faiss_id` is present, or an image entry with a
present `faiss_id` — is missing `file_id` or `file_name`; entries and clips
without a vector id are silently skipped even when their identifying fields
are missing. -/
theorem build_id_lookup_error_iff (db : List RawEntry) :
    (∃ msg, build_id_lookup db = .error msg)
      ↔ ∃ e ∈ db, HasIndexedVec e ∧ MissingReq e :=
  build_id_lookup_go_error_iff db []

/-- C5 witness: an image entry with an indexed vector id and no `file_id`
aborts lookup construction with an error. -/
theorem build_id_lookup_error_iff_witness :
    ∃ msg, build_id_lookup [exImageFatal] = .error msg :=
  (build_id_lookup_error_iff [exImageFatal]).mpr
    ⟨exImageFatal, List.mem_cons_self _ _,
      Or.inr ⟨rfl, by simp [exImageFatal]⟩, Or.inl rfl⟩

/-! ## Claim C6 -/

theorem readEntries_error_of_malformed {file : List SrcLine}
    (h : SrcLine.malformed ∈ file) : readEntries file = .error .parseErr := by
  induction file with
  | nil => simp at h
  | cons line rest ih =>
    cases line with
    | blank =>
      rcases List.mem_cons.mp h with hc | hc
      · exact absurd hc (by simp)
      · rw [show readEntries (SrcLine.blank :: rest) = readEntries rest from rfl]
        exact ih hc
    | okLine v =>
      rcases List.mem_cons.mp h with hc | hc
      · exact absurd hc (by simp)
      · rw [show readEntries (SrcLine.okLine v :: rest)
            = (readEntries rest).map (fun es => v :: es) from rfl, ih hc]
        rfl
    | malformed => rfl

theorem find?_filter_ne (u : List (Int × Bool)) (k : Int) (q : Rat)
    (hk : ¬((k : Rat) = q)) :
    (u.filter (fun p => decide (p.1 ≠ k))).find? (fun p => decide ((p.1 : Rat) = q))
      = u.find? (fun p => decide ((p.1 : Rat) = q)) := by
  induction u with
  | nil => rfl
  | cons p u ih =>
    by_cases hpk : p.1 = k
    · rw [List.filter_cons_of_neg (by simp [hpk]),
        List.find?_cons_of_neg _ (by simp [hpk, hk]), ih]
    · rw [List.filter_cons_of_pos (by simp [hpk])]
      by_cases hq : ((p.1 : Int) : Rat) = q
      · rw [List.find?_cons_of_pos _ (by simp [hq]), List.find?_cons_of_pos _ (by simp [hq])]
      · rw [List.find?_cons_of_neg _ (by simp [hq]), List.find?_cons_of_neg _ (by simp [hq]),
          ih]

theorem updateEntry_obj (u : List (Int × Bool)) (fs : List (String × JVal)) :
    updateEntry u (.obj fs)
      = (match getField (.obj fs) "file_id" with
         | none => .ok (.obj fs)
         | some fid =>
           match fidLookup u fid with
           | .error er => .error er
           | .ok none => .ok (.obj fs)
           | .ok (some b) => .ok (.obj (setField fs "duplicate" (.jbool b)))) := rfl

theorem fidLookup_num (u : List (Int × Bool)) (q : Rat) :
    fidLookup u (.num q)
      = .ok ((u.find? (fun p => decide ((p.1 : Rat) = q))).map (fun p => p.2)) := rfl

theorem fidLookup_jbool (u : List (Int × Bool)) (b : Bool) :
    fidLookup u (.jbool b)
      = .ok ((u.find? (fun p => decide ((p.1 : Rat) = (if b then 1 else 0)))).map
          (fun p => p.2)) := rfl

theorem updateEntry_filter_ne (u : List (Int × Bool)) (k : Int) (v : JVal)
    (hnm : ¬ FidMatches v k) :
    updateEntry (u.filter (fun p => decide (p.1 ≠ k))) v = updateEntry u v := by
  cases v with
  | obj fs =>
    rw [updateEntry_obj, updateEntry_obj]
    cases hgf : getField (.obj fs) "file_id" with
    | none => rfl
    | some fid =>
      cases fid with
      | null => rfl
      | str s => rfl
      | arr xs => rfl
      | obj fs' => rfl
      | num q =>
        show (match fidLookup (u.filter (fun p => decide (p.1 ≠ k))) (JVal.num q) with
            | .error er => (.error er : Except UpdErr JVal)
            | .ok none => .ok (.obj fs)
            | .ok (some b) => .ok (.obj (setField fs "duplicate" (.jbool b))))
          = (match fidLookup u (JVal.num q) with
            | .error er => (.error er : Except UpdErr JVal)
            | .ok none => .ok (.obj fs)
            | .ok (some b) => .ok (.obj (setField fs "duplicate" (.jbool b))))
        rw [fidLookup_num, fidLookup_num,
          find?_filter_ne u k q (fun hc => hnm (Or.inl (by rw [hgf, hc])))]
      | jbool b =>
        show (match fidLookup (u.filter (fun p => decide (p.1 ≠ k))) (JVal.jbool b) with
            | .error er => (.error er : Except UpdErr JVal)
            | .ok none => .ok (.obj fs)
            | .ok (some b) => .ok (.obj (setField fs "duplicate" (.jbool b))))
          = (match fidLookup u (JVal.jbool b) with
            | .error er => (.error er : Except UpdErr JVal)
            | .ok none => .ok (.obj fs)
            | .ok (some b) => .ok (.obj (setField fs "duplicate" (.jbool b))))
        rw [fidLookup_jbool, fidLookup_jbool,
          find?_filter_ne u k (if b then 1 else 0) (fun hc => hnm (Or.inr ⟨b, hgf, hc⟩))]
  | null => rfl
  | jbool b => rfl
  | num q => rfl
  | str s => rfl
  | arr xs => rfl

theorem applyUpdates_filter_ne (u : List (Int × Bool)) (k : Int) :
    ∀ es : List JVal, (∀ v ∈ es, ¬ FidMatches v k) →
      applyUpdates (u.filter (fun p => decide (p.1 ≠ k))) es = applyUpdates u es := by
  intro es
  induction es with
  | nil => intro _; rfl
  | cons e es ih =>
    intro hes
    unfold applyUpdates
    rw [updateEntry_filter_ne u k e (hes e (List.mem_cons_self _ _)),
      ih (fun v hv => hes v (List.mem_cons_of_mem _ hv))]

theorem readEntries_mem {file : List SrcLine} {es : List JVal}
    (h : readEntries file = .ok es) : ∀ v ∈ es, SrcLine.okLine v ∈ file := by
  induction file generalizing es with
  | nil =>
    rw [show readEntries [] = .ok [] from rfl] at h
    injection h with h
    subst h
    simp
  | cons line rest ih =>
    cases line with
    | blank =>
      rw [show readEntries (SrcLine.blank :: rest) = readEntries rest from rfl] at h
      exact fun v hv => List.mem_cons_of_mem _ (ih h v hv)
    | okLine w =>
      rw [show readEntries (SrcLine.okLine w :: rest)
          = (readEntries rest).map (fun es => w :: es) from rfl] at h
      cases hrest : readEntries rest with
      | error er => rw [hrest] at h; exact absurd h (by simp [Except.map])
      | ok es' =>
        rw [hrest] at h
        have hes : es = w :: es' := by
          have : Except.ok (ε := UpdErr) (w :: es') = .ok es := h
          injection this with hh
          exact hh.symm
        subst hes
        intro v hv
        rcases List.mem_cons.mp hv with rfl | hv
        · exact List.mem_cons_self _ _
        · exact List.mem_cons_of_mem _ (ih hrest v hv)
    | malformed =>
      rw [show readEntries (SrcLine.malformed :: rest) = .error .parseErr from rfl] at h
      exact absurd h (by simp)

/-- C6: a malformed non-blank line fails the whole update with a parse error
and the file keeps its original contents — nothing is written unless every
line parses; and update keys that match no entry of the file are ignored:
removing them from the mapping changes neither the returned value nor the
written file. -/
theorem update_duplicate_flags_error_handling (file : List SrcLine)
    (u : List (Int × Bool)) :
    (SrcLine.malformed ∈ file →
      update_duplicate_flags file u = (.error .parseErr, file)) ∧
      (∀ k : Int, (∀ v, SrcLine.okLine v ∈ file → ¬ FidMatches v k) →
        update_duplicate_flags file u
          = update_duplicate_flags file (u.filter (fun p => decide (p.1 ≠ k)))) := by
  constructor
  · intro hmal
    unfold update_duplicate_flags
    rw [readEntries_error_of_malformed hmal]
  · intro k hk
    unfold update_duplicate_flags
    cases hre : readEntries file with
    | error er => rfl
    | ok es =>
      show (match applyUpdates u es with
          | .error er => ((.error er : Except UpdErr (List JVal)), file)
          | .ok updated => (.ok updated, updated.map SrcLine.okLine))
        = (match applyUpdates (u.filter (fun p => decide (p.1 ≠ k))) es with
          | .error er => ((.error er : Except UpdErr (List JVal)), file)
          | .ok updated => (.ok updated, updated.map SrcLine.okLine))
      rw [applyUpdates_filter_ne u k es
        (fun v hv => hk v (readEntries_mem hre v hv))]

/-- C6 witness: a file with a malformed second line is left intact with a
parse error, and removing the never-matching key 7 from the mapping does not
change the result on a well-formed file. -/
theorem update_duplicate_flags_error_handling_witness :
    update_duplicate_flags exFileBad [] = (.error .parseErr, exFileBad) ∧
      update_duplicate_flags exFileGood [(1, true), (7, false)]
        = update_duplicate_flags exFileGood
            (([(1, true), (7, false)] : List (Int × Bool)).filter
              (fun p => decide (p.1 ≠ 7))) := by
  constructor
  · exact (update_duplicate_flags_error_handling exFileBad []).1 (by simp [exFileBad])
  · refine (update_duplicate_flags_error_handling exFileGood [(1, true), (7, false)]).2 7 ?_
    intro v hv
    have hv' : v = exEntryObj := by
      simp only [exFileGood, List.mem_singleton] at hv
      injection hv
    subst hv'
    rintro (h | ⟨b, h, -⟩)
    · rw [show getField exEntryObj "file_id" = some (.num 1) from rfl] at h
      injection h with h
      injection h with h
      norm_num at h
    · rw [show getField exEntryObj "file_id" = some (.num 1) from rfl] at h
      injection h with h
      exact absurd h (by simp)

/-! ## Claim C10 -/

/-- C10 counterexample: a line parsing to the JSON number `5` (a valid JSON
value, but not an object) makes the update loop raise (`entry.get` on a
non-dict), so nothing is returned or rewritten — the original file is left
as is and no entry list exists, contrary to the claim's promise for every
file whose lines all parse. -/
theorem update_duplicate_flags_non_object_cex :
    (update_duplicate_flags exFileNonObj []).1 = .error .attrErr ∧
      (update_duplicate_flags exFileNonObj []).2 = exFileNonObj ∧
      ¬ ∃ l, (update_duplicate_flags exFileNonObj []).1 = .ok l := by
  refine ⟨rfl, rfl, ?_⟩
  rintro ⟨l, hl⟩
  rw [show (update_duplicate_flags exFileNonObj []).1 = .error .attrErr from rfl] at hl
  exact Except.noConfusion hl

theorem getField_obj (fs : List (String × JVal)) (fld : String) :
    getField (.obj fs) fld = (fs.find? (fun p => decide (p.1 = fld))).map (fun p => p.2) :=
  rfl

theorem getField_setField_ne (fs : List (String × JVal)) (k fld : String) (v : JVal)
    (h : fld ≠ k) :
    getField (.obj (setField fs k v)) fld = getField (.obj fs) fld := by
  induction fs with
  | nil =>
    rw [show setField [] k v = [(k, v)] from rfl, getField_obj, getField_obj,
      List.find?_cons_of_neg _ (by
        simp only [decide_eq_true_eq]
        exact fun hc => h hc.symm)]
  | cons p rest ih =>
    obtain ⟨k', v'⟩ := p
    by_cases hk : k' = k
    · subst hk
      rw [show setField ((k', v') :: rest) k' v = (k', v) :: rest from by simp [setField],
        getField_obj, getField_obj,
        List.find?_cons_of_neg _ (by
          simp only [decide_eq_true_eq]
          exact fun hc => h hc.symm),
        List.find?_cons_of_neg _ (by
          simp only [decide_eq_true_eq]
          exact fun hc => h hc.symm)]
    · rw [show setField ((k', v') :: rest) k v = (k', v') :: setField rest k v from by
        simp [setField, hk], getField_obj, getField_obj]
      by_cases hfld : k' = fld
      · rw [List.find?_cons_of_pos _ (by simp [hfld]),
          List.find?_cons_of_pos _ (by simp [hfld])]
      · rw [List.find?_cons_of_neg _ (by simp [hfld]),
          List.find?_cons_of_neg _ (by simp [hfld])]
        have hih := ih
        rw [getField_obj, getField_obj] at hih
        exact hih

theorem readEntries_ok_of_no_malformed {file : List SrcLine}
    (h : SrcLine.malformed ∉ file) : ∃ es, readEntries file = .ok es := by
  induction file with
  | nil => exact ⟨[], rfl⟩
  | cons line rest ih =>
    cases line with
    | blank =>
      exact ih (fun hc => h (List.mem_cons_of_mem _ hc))
    | okLine v =>
      obtain ⟨es, hes⟩ := ih (fun hc => h (List.mem_cons_of_mem _ hc))
      refine ⟨v :: es, ?_⟩
      rw [show readEntries (SrcLine.okLine v :: rest)
          = (readEntries rest).map (fun es => v :: es) from rfl, hes]
      rfl
    | malformed => exact absurd (List.mem_cons_self _ _) h

theorem fidLookup_some_matches {u : List (Int × Bool)} {fid : JVal} {b : Bool}
    (h : fidLookup u fid = .ok (some b)) {e : JVal}
    (hgf : getField e "file_id" = some fid) : ∃ p ∈ u, FidMatches e p.1 := by
  cases fid with
  | arr xs => exact absurd h (by simp [fidLookup])
  | obj fs => exact absurd h (by simp [fidLookup])
  | null =>
    rw [show fidLookup u .null = .ok none from rfl] at h
    injection h with h
    exact absurd h (by simp)
  | str s =>
    rw [show fidLookup u (.str s) = .ok none from rfl] at h
    injection h with h
    exact absurd h (by simp)
  | num q =>
    rw [fidLookup_num] at h
    injection h with h
    obtain ⟨p, hp, -⟩ := Option.map_eq_some'.mp h
    have hpmem := List.mem_of_find?_eq_some hp
    have hpred := of_decide_eq_true
      (@List.find?_some (Int × Bool) (fun p => decide ((p.1 : Rat) = q)) p u hp)
    refine ⟨p, hpmem, Or.inl ?_⟩
    rw [hgf, hpred]
  | jbool b' =>
    rw [fidLookup_jbool] at h
    injection h with h
    obtain ⟨p, hp, -⟩ := Option.map_eq_some'.mp h
    have hpmem := List.mem_of_find?_eq_some hp
    have hpred := of_decide_eq_true
      (@List.find?_some (Int × Bool)
        (fun p => decide ((p.1 : Rat) = (if b' then 1 else 0))) p u hp)
    exact ⟨p, hpmem, Or.inr ⟨b', hgf, hpred⟩⟩

theorem updateEntry_spec (u : List (Int × Bool)) (fs : List (String × JVal))
    (hhash : FidHashable (.obj fs)) :
    ∃ e', updateEntry u (.obj fs) = .ok e' ∧
      (∀ fld, fld ≠ "duplicate" → getField e' fld = getField (.obj fs) fld) ∧
      ((∀ p ∈ u, ¬ FidMatches (.obj fs) p.1) → e' = .obj fs) := by
  cases hgf : getField (.obj fs) "file_id" with
  | none =>
    have hred : updateEntry u (.obj fs) = .ok (.obj fs) := by
      rw [updateEntry_obj, hgf]
    exact ⟨.obj fs, hred, fun _ _ => rfl, fun _ => rfl⟩
  | some fid =>
    have hred : updateEntry u (.obj fs)
        = (match fidLookup u fid with
           | .error er => (.error er : Except UpdErr JVal)
           | .ok none => .ok (.obj fs)
           | .ok (some b) => .ok (.obj (setField fs "duplicate" (.jbool b)))) := by
      rw [updateEntry_obj, hgf]
    rw [hred]
    cases hfl : fidLookup u fid with
    | error er =>
      cases fid with
      | arr xs => exact absurd rfl ((hhash _ hgf).1 xs)
      | obj fs' => exact absurd rfl ((hhash _ hgf).2 fs')
      | num q =>
        rw [fidLookup_num] at hfl
        exact absurd hfl (by simp)
      | jbool b =>
        rw [fidLookup_jbool] at hfl
        exact absurd hfl (by simp)
      | null => exact absurd hfl (by simp [show fidLookup u .null = .ok none from rfl])
      | str s => exact absurd hfl (by simp [show fidLookup u (.str s) = .ok none from rfl])
    | ok ob =>
      cases ob with
      | none => exact ⟨.obj fs, rfl, fun _ _ => rfl, fun _ => rfl⟩
      | some b =>
        refine ⟨.obj (setField fs "duplicate" (.jbool b)), rfl, ?_, ?_⟩
        · intro fld hfld
          exact getField_setField_ne fs "duplicate" fld (.jbool b) hfld
        · intro hno
          obtain ⟨p, hp, hm⟩ := fidLookup_some_matches hfl hgf
          exact absurd hm (hno p hp)

theorem applyUpdates_spec (u : List (Int × Bool)) :
    ∀ es : List JVal, (∀ e ∈ es, ∃ fs, e = .obj fs) → (∀ e ∈ es, FidHashable e) →
      ∃ l, applyUpdates u es = .ok l ∧
        List.Forall₂ (fun e e' =>
          (∀ fld, fld ≠ "duplicate" → getField e' fld = getField e fld) ∧
          ((∀ p ∈ u, ¬ FidMatches e p.1) → e' = e)) es l := by
  intro es
  induction es with
  | nil => intro _ _; exact ⟨[], rfl, List.Forall₂.nil⟩
  | cons e es ih =>
    intro hobj hhash
    obtain ⟨fs, rfl⟩ := hobj e (List.mem_cons_self _ _)
    obtain ⟨e', he', hf1, hf2⟩ := updateEntry_spec u fs (hhash _ (List.mem_cons_self _ _))
    obtain ⟨l, hl, hrel⟩ := ih (fun x hx => hobj x (List.mem_cons_of_mem _ hx))
      (fun x hx => hhash x (List.mem_cons_of_mem _ hx))
    refine ⟨e' :: l, ?_, List.Forall₂.cons ⟨hf1, hf2⟩ hrel⟩
    rw [show applyUpdates u (JVal.obj fs :: es)
        = (match updateEntry u (.obj fs) with
           | .error er => (.error er : Except UpdErr (List JVal))
           | .ok e'' => (applyUpdates u es).map (fun l => e'' :: l)) from rfl,
      he', hl]
    rfl

/-- C10 (amended): on a file whose non-blank lines all parse as JSON OBJECTS
with hashable (non-array, non-object) `file_id` values, the update succeeds;
the returned list and the rewritten file hold the entries in their original
relative order; every field other than `duplicate` of every entry is
preserved; and an entry matched by no key of the mapping is returned
entirely unchanged.  (The counterexample shows the object requirement is
necessary: a line parsing to a non-object aborts the whole update.) -/
theorem update_duplicate_flags_frame (file : List SrcLine) (u : List (Int × Bool))
    (hmal : SrcLine.malformed ∉ file)
    (hobj : ∀ v, SrcLine.okLine v ∈ file → ∃ fs, v = JVal.obj fs)
    (hhash : ∀ v, SrcLine.okLine v ∈ file → FidHashable v) :
    ∃ es l, readEntries file = .ok es ∧
      update_duplicate_flags file u = (.ok l, l.map SrcLine.okLine) ∧
      List.Forall₂ (fun e e' =>
        (∀ fld, fld ≠ "duplicate" → getField e' fld = getField e fld) ∧
        ((∀ p ∈ u, ¬ FidMatches e p.1) → e' = e)) es l := by
  obtain ⟨es, hes⟩ := readEntries_ok_of_no_malformed hmal
  obtain ⟨l, hl, hrel⟩ := applyUpdates_spec u es
    (fun e he => hobj e (readEntries_mem hes e he))
    (fun e he => hhash e (readEntries_mem hes e he))
  refine ⟨es, l, hes, ?_, hrel⟩
  unfold update_duplicate_flags
  rw [hes]
  show (match applyUpdates u es with
      | .error er => ((.error er : Except UpdErr (List JVal)), file)
      | .ok updated => (.ok updated, updated.map SrcLine.okLine))
    = (.ok l, l.map SrcLine.okLine)
  rw [hl]

/-- C10 witness: the single-entry file is updated in place — order, length
and all other fields preserved. -/
theorem update_duplicate_flags_frame_witness :
    ∃ es l, readEntries exFileGood = .ok es ∧
      update_duplicate_flags exFileGood [(1, true)] = (.ok l, l.map SrcLine.okLine) ∧
      List.Forall₂ (fun e e' =>
        (∀ fld, fld ≠ "duplicate" → getField e' fld = getField e fld) ∧
        ((∀ p ∈ [((1 : Int), true)], ¬ FidMatches e p.1) → e' = e)) es l := by
  apply update_duplicate_flags_frame
  · simp [exFileGood]
  · intro v hv
    simp only [exFileGood, List.mem_singleton] at hv
    injection hv with hv
    subst hv
    exact ⟨[("file_id", .num 1), ("duplicate", .jbool false)], rfl⟩
  · intro v hv
    simp only [exFileGood, List.mem_singleton] at hv
    injection hv with hv
    subst hv
    intro fid hfid
    rw [show getField exEntryObj "file_id" = some (.num 1) from rfl] at hfid
    injection hfid with hfid
    subst hfid
    exact ⟨fun xs => by simp, fun fs => by simp⟩
